import Mathlib

/-!
# Verification of the discrete-event simulation kernel

Shallow embedding of the `skys-elvis-impl` simulator:

* `Chan`, `chanSend`, `takeAllBuf`  — `src/util.rs` (`Channel`, `take_all`);
  the spec's Design Notes adopt this shared-buffer channel model.
* `ConnectionInfo`, `pollConn`, `IncMachine` — `src/inc_machine.rs`.
* `Wire` — `src/wire.rs` (over the `Node` interface of `src/simulator.rs`).
* `Engine`, `timeStep`, `runCmd` — the driver loop of `src/main.rs`
  (`time_step`, `move_messages`, and the `add`/`connect`/`step`/`realtime`
  commands).

Machine integers: Rust `u64` times and `u8` bytes are embedded as `Nat`.
The one place the source makes overflow explicit — the
`time.checked_add(new_num as u64).expect(..)` in `IncMachine::poll` — is
embedded as an explicit `< 2 ^ 64` test whose failure is a panic; panics
are embedded as `Option.none` and propagate through every caller.
`Wire` times are Rust `i64`, embedded as `Int`.
-/

namespace Sim

/-- The simulation's byte-buffer arena.  `src/util.rs` shares each
`Box::leak`ed `RefCell<Vec<u8>>` between the two `Channel` values of a
connected pair; here every such leaked buffer is a slot in one store and
a `Channel` holds slot indices, so the source's aliasing (one side's
outbox is the very same buffer as the peer's inbox) is preserved. -/
abbrev Store := List (List Nat)

/-- Read buffer `i` of the store (a live `Channel` never holds a dangling
index, so the `[]` default is never exercised on reachable states). -/
def bufGet (st : Store) (i : Nat) : List Nat := st.getD i []

/-- Overwrite buffer `i` of the store. -/
def bufSet (st : Store) (i : Nat) (v : List Nat) : Store := st.set i v

/-- `take_all` of `src/util.rs`: drain a buffer, returning its contents. -/
def takeAllBuf (st : Store) (i : Nat) : List Nat × Store :=
  (bufGet st i, bufSet st i [])

/-- One side's view of a connection: `Channel` of `src/util.rs`.
`inbox`/`outbox` are store slots; `us`/`them` are the machine indices
(`index()` / `other_index()`). -/
structure Chan where
  inbox : Nat
  outbox : Nat
  us : Nat
  them : Nat
deriving DecidableEq

/-- `Channel::new(idx1, idx2)` of `src/util.rs`: leak two fresh buffers
(slots `n` and `n + 1` of the store) and hand out the two cross-wired
ends — the first end's outbox is the second end's inbox and vice versa. -/
def channelNew (n idx1 idx2 : Nat) : Chan × Chan :=
  (⟨n, n + 1, idx1, idx2⟩, ⟨n + 1, n, idx2, idx1⟩)

/-- `Channel::send` of `src/util.rs`: append to this side's outbox. -/
def chanSend (st : Store) (c : Chan) (data : List Nat) : Store :=
  bufSet st c.outbox (bufGet st c.outbox ++ data)

/-- `Channel::recv` of `src/util.rs`: drain and return this side's inbox. -/
def chanRecv (st : Store) (c : Chan) : List Nat × Store :=
  takeAllBuf st c.inbox

/-- Per-connection state of `IncMachine` (`src/inc_machine.rs`). -/
inductive ConnectionInfo
  /-- Scheduled to transmit `value` at `time`. -/
  | willSend (time : Nat) (value : Nat)
  /-- Idle, awaiting input. -/
  | waiting
deriving DecidableEq

/-- One iteration of the loop in `IncMachine::poll`
(`src/inc_machine.rs:47-63`): the scrutinee `(*ci, chan.recv())` drains
the inbox unconditionally; a `WillSend` connection sends iff
`time >= when` and then becomes `Waiting` unconditionally; a `Waiting`
connection with a first byte `n` computes `n.saturating_add(1)` and
`time.checked_add(new_num)`, panicking (`none`) on `u64` overflow. -/
def pollConn (time : Nat) (st : Store) (c : Chan) (ci : ConnectionInfo) :
    Option (ConnectionInfo × Store) :=
  let msg := bufGet st c.inbox
  let st1 := bufSet st c.inbox []
  match ci with
  | .willSend w v =>
      some (.waiting, if w ≤ time then chanSend st1 c [v] else st1)
  | .waiting =>
      match msg.head? with
      | some n =>
          let newNum := min (n + 1) 255
          if time + newNum < 2 ^ 64 then
            some (.willSend (time + newNum) newNum, st1)
          else none
      | none => some (.waiting, st1)

/-- The whole `for (chan, ci) in &mut self.connections` loop of
`IncMachine::poll`, threading the buffer store left to right. -/
def pollConns (time : Nat) :
    List (Chan × ConnectionInfo) → Store →
    Option (List (Chan × ConnectionInfo) × Store)
  | [], st => some ([], st)
  | (c, ci) :: rest, st =>
    match pollConn time st c ci with
    | none => none
    | some (ci', st') =>
      match pollConns time rest st' with
      | none => none
      | some (rest', st'') => some ((c, ci') :: rest', st'')

/-- `IncMachine` (`src/inc_machine.rs`): a list of connections, each with
its per-connection state. -/
structure IncMachine where
  connections : List (Chan × ConnectionInfo)
deriving DecidableEq

instance : Inhabited IncMachine := ⟨⟨[]⟩⟩

/-- `IncMachine::start`: no connections. -/
def IncMachine.start : IncMachine := ⟨[]⟩

/-- `IncMachine::poll`. -/
def IncMachine.poll (m : IncMachine) (time : Nat) (st : Store) :
    Option (IncMachine × Store) :=
  (pollConns time m.connections st).map (fun p => (⟨p.1⟩, p.2))

/-- `IncMachine::add_connection` (`src/inc_machine.rs:35-44`): the end
whose own index (`sender_name`) is smaller than the peer's
(`receiver_name`) is seeded `WillSend(time + 1, 1)`; the other starts
`Waiting`. -/
def IncMachine.addConnection (m : IncMachine) (c : Chan) (time : Nat) :
    IncMachine :=
  ⟨m.connections ++
    [(c, if c.us < c.them then .willSend (time + 1) 1 else .waiting)]⟩

/-- The loop body of `IncMachine::poll_at` (`src/inc_machine.rs:70-77`):
update the running minimum with a `WillSend` connection's time. -/
def pollAtStep (acc : Option Nat) (p : Chan × ConnectionInfo) : Option Nat :=
  match p.2 with
  | .willSend w _ =>
      match acc with
      | some t => some (min w t)
      | none => some w
  | .waiting => acc

/-- `IncMachine::poll_at` (`src/inc_machine.rs:67-79`): fold the
`Time::min` accumulator over the `WillSend` times of all connections. -/
def IncMachine.pollAt (m : IncMachine) : Option Nat :=
  m.connections.foldl pollAtStep none

/-- The `WillSend` times of a connection list, in order (a specification
helper used to state what `IncMachine.pollAt` computes). -/
def wsTimes (l : List (Chan × ConnectionInfo)) : List Nat :=
  l.filterMap (fun p =>
    match p.2 with
    | .willSend w _ => some w
    | .waiting => none)

/-! ## The engine of `src/main.rs` -/

/-- Strict lexicographic order on `(Time, Index)` pairs: the order of the
driver's `BTreeSet<(Time, Index)>` event queue. -/
def evLt (p q : Nat × Nat) : Prop :=
  p.1 < q.1 ∨ (p.1 = q.1 ∧ p.2 < q.2)

instance : DecidablePred (fun pq : (Nat × Nat) × Nat × Nat => evLt pq.1 pq.2) :=
  fun pq => by unfold evLt; infer_instance

instance (p q : Nat × Nat) : Decidable (evLt p q) := by
  unfold evLt; infer_instance

/-- Ordered insertion into the event queue.  A strictly sorted list of
`(Time, Index)` pairs embeds the `BTreeSet`: insertion keeps the list
sorted and drops an exact duplicate, and the head is the least element
(`pop_first`). -/
def insertEvent (p : Nat × Nat) : List (Nat × Nat) → List (Nat × Nat)
  | [] => [p]
  | q :: rest =>
    if evLt p q then p :: q :: rest
    else if p = q then q :: rest
    else q :: insertEvent p rest

/-- The driver's recurring `if let Some(t) = machine.poll_at() {
events.insert((t, idx)) }` pattern (`src/main.rs:138-140`, `166-168`,
`178-183`): insert an event at the reported wake time, if any. -/
def optInsert (o : Option Nat) (j : Nat) (evs : List (Nat × Nat)) :
    List (Nat × Nat) :=
  match o with
  | some t' => insertEvent (t', j) evs
  | none => evs

/-- One entry of the (ghost) interaction history: machine `idx` was
polled at `time` (`isPoll = true`), or had `add_connection` called on it
at `time` (`isPoll = false`).  The source does not store this history;
it is recorded here so that theorems can speak about the sequence of
`poll` calls a machine observes. -/
structure HistEntry where
  idx : Nat
  time : Nat
  isPoll : Bool
deriving DecidableEq

/-- The driver state of `src/main.rs::main`: the event queue, the clock
(`last_time`), the machine list, the channel-pair list, the buffer
arena backing all channels, and the ghost interaction history. -/
structure Engine where
  events : List (Nat × Nat)
  lastTime : Nat
  machines : List IncMachine
  channels : List (Chan × Chan)
  bufs : Store
  hist : List HistEntry
deriving DecidableEq

/-- `move_messages` of `src/main.rs:92-100`: `take_all` the sending
side's outbox; if empty report `false`, else extend the receiving side's
inbox with the taken bytes and report `true`.  (For a connected pair
these two slots are the same buffer, so the bytes land back where they
were.) -/
def moveMessages (st : Store) (sendc recvc : Chan) : Bool × Store :=
  let (b, st1) := takeAllBuf st sendc.outbox
  if b = [] then (false, st1)
  else (true, bufSet st1 recvc.inbox (bufGet st1 recvc.inbox ++ b))

/-- The per-pair body of the channel scan in `time_step`
(`src/main.rs:130-135`): enqueue `(time, other_index)` for each of the
two directed transfers that reported a moved message. -/
def movePairEvents (time : Nat) (c1 c2 : Chan) (st : Store)
    (evs : List (Nat × Nat)) : List (Nat × Nat) :=
  let evs1 :=
    if (moveMessages st c1 c2).1 then insertEvent (time, c1.them) evs
    else evs
  if (moveMessages (moveMessages st c1 c2).2 c2 c1).1 then
    insertEvent (time, c2.them) evs1
  else evs1

/-- The channel scan of `time_step` (`src/main.rs:129-136`): for every
stored pair, move `chan1 → chan2` then `chan2 → chan1`, enqueuing
`(time, other_index)` for each non-empty transfer. -/
def moveAll (time : Nat) :
    List (Chan × Chan) → List (Nat × Nat) → Store →
    List (Nat × Nat) × Store
  | [], evs, st => (evs, st)
  | (c1, c2) :: rest, evs, st =>
    moveAll time rest (movePairEvents time c1 c2 st evs)
      (moveMessages (moveMessages st c1 c2).2 c2 c1).2

/-- `time_step` of `src/main.rs:119-142`: pop the least `(time, index)`
event (no-op when the queue is empty), advance the clock, poll the
popped machine, scan all channel pairs for transfers (enqueuing the
receiving side at the current time), and re-enqueue the polled machine
at its self-reported `poll_at` time, if any.  An out-of-range machine
index or a panic inside `poll` aborts the run (`none`). -/
def timeStep (e : Engine) : Option Engine :=
  match e.events with
  | [] => some e
  | (t, i) :: rest =>
    match e.machines[i]? with
    | none => none
    | some m =>
      match m.poll t e.bufs with
      | none => none
      | some (m', st') =>
        let ms := moveAll t e.channels rest st'
        some { events := optInsert m'.pollAt i ms.1,
               lastTime := t,
               machines := e.machines.set i m',
               channels := e.channels,
               bufs := ms.2,
               hist := e.hist ++ [⟨i, t, true⟩] }

/-- Iterate `timeStep` (used to state what further stepping does). -/
def stepN : Nat → Engine → Option Engine
  | 0, e => some e
  | n + 1, e =>
    match timeStep e with
    | none => none
    | some e' => stepN n e'

/-- The driver commands that mutate simulation state
(`src/main.rs::Command`; `help`/`print`/`log`/`quit` do not touch it).
`realtime` carries, besides the source's seconds argument, a fuel bound
on the number of loop iterations: the source's `loop` runs until its
guard fails, and every finite prefix of that run is `realtime secs fuel`
for some fuel, so a property proved for all fuels covers the loop. -/
inductive Cmd
  | add
  | connect (a b : Nat)
  | step
  | realtime (secs fuel : Nat)

/-- The `Command::Add` arm: push `IncMachine::start` and enqueue its
`poll_at` time if present (it never is for a fresh `IncMachine`). -/
def addCmd (e : Engine) : Engine :=
  let m := IncMachine.start
  let machines' := e.machines ++ [m]
  { e with
    machines := machines',
    events := optInsert m.pollAt (machines'.length - 1) e.events }

/-- The `Command::Connect` arm (`src/main.rs:170-184`): create a channel
pair over two fresh buffers, `add_connection` both machines at the
current clock, store the pair, and re-enqueue each endpoint's `poll_at`
time.  Out-of-range indices abort (`none`), as the source's
`machines[name1]` indexing panics. -/
def connectCmd (a b : Nat) (e : Engine) : Option Engine :=
  let pair := channelNew e.bufs.length a b
  match e.machines[a]? with
  | none => none
  | some ma =>
    let ms1 := e.machines.set a (ma.addConnection pair.1 e.lastTime)
    match ms1[b]? with
    | none => none
    | some mb =>
      let ms2 := ms1.set b (mb.addConnection pair.2 e.lastTime)
      let evs1 := optInsert (ms2.getD a default).pollAt a e.events
      let evs2 := optInsert (ms2.getD b default).pollAt b evs1
      some { events := evs2,
             lastTime := e.lastTime,
             machines := ms2,
             channels := e.channels ++ [pair],
             bufs := e.bufs ++ [[], []],
             hist := e.hist ++
               [⟨a, e.lastTime, false⟩, ⟨b, e.lastTime, false⟩] }

/-- The `Command::Realtime` loop (`src/main.rs:198-216`): while the
earliest event exists and its time is within `virtEnd`, run `time_step`
(the wall-clock sleep between events has no effect on simulation state
and is not modeled).  `fuel` bounds the number of iterations. -/
def realtimeLoop : Nat → Nat → Engine → Option Engine
  | 0, _, e => some e
  | fuel + 1, virtEnd, e =>
    match e.events.head? with
    | none => some e
    | some (nt, _) =>
      if virtEnd < nt then some e
      else
        match timeStep e with
        | none => none
        | some e' => realtimeLoop fuel virtEnd e'

/-- Dispatch one driver command. -/
def runCmd (e : Engine) : Cmd → Option Engine
  | .add => some (addCmd e)
  | .connect a b => connectCmd a b e
  | .step => if e.events = [] then some e else timeStep e
  | .realtime secs fuel => realtimeLoop fuel (e.lastTime + secs) e

/-- Run a command list from state `e`. -/
def runCmdsFrom (e : Engine) : List Cmd → Option Engine
  | [] => some e
  | c :: rest =>
    match runCmd e c with
    | none => none
    | some e' => runCmdsFrom e' rest

/-- The empty simulation `src/main.rs::main` starts from. -/
def initEngine : Engine := ⟨[], 0, [], [], [], []⟩

/-- Run a command list from the empty simulation. -/
def runCmds (l : List Cmd) : Option Engine := runCmdsFrom initEngine l

/-! ## The `Wire` of `src/wire.rs`

`Wire` implements the `Node` interface of `src/simulator.rs`, whose
`Time` is `i64` (embedded as `Int`) and whose messages are
`(Index, Msg)` pairs. -/

/-- An entry of the wire's outgoing FIFO (`OutgoingMsg` of
`src/wire.rs`): scheduled delivery time, destination, payload. -/
abbrev WireEntry := Int × Nat × List Nat

/-- `Wire` (`src/wire.rs`): two endpoints, a fixed delay (`Wire::new`
asserts `delay >= 0`), and the outgoing FIFO (`VecDeque`, head first). -/
structure Wire where
  end1 : Nat
  end2 : Nat
  delay : Int
  outgoing : List WireEntry
deriving DecidableEq

/-- The destination computation inside `Wire::poll`
(`src/wire.rs:31-37`): the other end of the wire, or a panic (`none`)
when the sender is neither configured endpoint. -/
def routeDest (w : Wire) (sender : Nat) : Option Nat :=
  if sender = w.end1 then some w.end2
  else if sender = w.end2 then some w.end1
  else none

/-- The intake loop of `Wire::poll` (`src/wire.rs:30-41`): route each
inbound `(sender, payload)` pair in order, stamping it `time + delay`,
panicking (`none`) on an invalid sender. -/
def wireIntake (w : Wire) (time : Int) :
    List (Nat × List Nat) → Option (List WireEntry)
  | [] => some []
  | (s, m) :: rest =>
    match routeDest w s with
    | none => none
    | some d =>
      match wireIntake w time rest with
      | none => none
      | some l => some ((time + w.delay, d, m) :: l)

/-- The drain loop of `Wire::poll` (`src/wire.rs:44-52`): pop FIFO
entries from the front while their delivery time is `<= time`, emitting
`(destination, payload)` pairs; stop at the first entry still in the
future. -/
def drainReady (time : Int) : List WireEntry → List (Nat × List Nat) × List WireEntry
  | [] => ([], [])
  | (t, d, m) :: rest =>
    if t ≤ time then
      let r := drainReady time rest
      ((d, m) :: r.1, r.2)
    else ([], (t, d, m) :: rest)

/-- `Wire::poll`: intake then drain. -/
def Wire.poll (w : Wire) (time : Int) (incoming : List (Nat × List Nat)) :
    Option (List (Nat × List Nat) × Wire) :=
  match wireIntake w time incoming with
  | none => none
  | some newEntries =>
    let r := drainReady time (w.outgoing ++ newEntries)
    some (r.1, { w with outgoing := r.2 })

/-- `Wire::poll_at` (`src/wire.rs:56-58`): the delivery time of the
FIFO's front entry, if any. -/
def Wire.pollAt (w : Wire) : Option Int :=
  w.outgoing.head?.map (fun en => en.1)

/-! ## Well-formedness predicates and the engine invariant

These are not source translations; they name the structural facts that
hold of every reachable engine state and are used to state and prove the
queue/ordering claims. -/

/-- A channel end whose two slots are distinct and live in the store.
Every end `Channel::new` hands out satisfies this. -/
def ChanWF (st : Store) (c : Chan) : Prop :=
  c.inbox ≠ c.outbox ∧ c.inbox < st.length ∧ c.outbox < st.length

instance (st : Store) (c : Chan) : Decidable (ChanWF st c) := by
  unfold ChanWF; infer_instance

/-- The two ends of a connected pair are cross-wired over the same two
buffers: each side's outbox is the other side's inbox (`Channel::new`,
`src/util.rs:56-73`). -/
def crossWired (p : Chan × Chan) : Prop :=
  p.2.inbox = p.1.outbox ∧ p.1.inbox = p.2.outbox

instance (p : Chan × Chan) : Decidable (crossWired p) := by
  unfold crossWired; infer_instance

/-- Shape of the engine's channel registry: the `k`-th stored pair owns
the two buffer slots `2k` and `2k + 1`, cross-wired, with matching
endpoint indices. -/
def chanShape (e : Engine) : Prop :=
  e.bufs.length = 2 * e.channels.length ∧
  ∀ k c1 c2, e.channels[k]? = some (c1, c2) →
    c1.inbox = 2 * k ∧ c1.outbox = 2 * k + 1 ∧
    c2.inbox = 2 * k + 1 ∧ c2.outbox = 2 * k ∧
    c2.us = c1.them ∧ c2.them = c1.us

/-- The reachable-state invariant of the driver loop:
the event queue is strictly sorted (it embeds a `BTreeSet`), queued
events never lie in the past, every pending `WillSend` lies in the
future and is covered by a queued event for its machine no later than
it, the interaction history is non-decreasing in time and bounded by the
clock, and the channel registry has its allocation shape. -/
structure Inv (e : Engine) : Prop where
  sorted : e.events.Pairwise evLt
  evLB : ∀ p ∈ e.events, e.lastTime ≤ p.1
  wsLB : ∀ i m, e.machines[i]? = some m →
    ∀ c w v, (c, ConnectionInfo.willSend w v) ∈ m.connections →
      e.lastTime ≤ w ∧ ∃ t, (t, i) ∈ e.events ∧ t ≤ w
  histLB : ∀ h ∈ e.hist, h.time ≤ e.lastTime
  histSorted : (e.hist.map HistEntry.time).Pairwise (· ≤ ·)
  shape : chanShape e

/-! ### Concrete command sequences used by the scenario theorems -/

/-- The spec's concrete scenario: two machines, connected, stepped
three times. -/
def bounceCmds : List Cmd :=
  [.add, .add, .connect 0 1, .step, .step, .step]

/-- The engine state after a prefix of `bounceCmds` (total by
defaulting, which these runs never hit). -/
def bounceState (n : Nat) : Engine :=
  (runCmds (bounceCmds.take n)).getD initEngine

/-- Commands after which machine 1 is dormant (its `poll_at` is none and
it has no pending inbound bytes) yet a stale event `(3, 1)` is queued:
machine 1's `WillSend(3, 2)` toward machine 0 was dropped by the early
poll at time 2 (triggered by connecting machine 2), but the event
enqueued for it at time 3 was never removed. -/
def dormantCmds : List Cmd :=
  [.add, .add, .add, .connect 0 1, .step, .step, .connect 1 2, .step]

/-- The engine state after `dormantCmds` plus `n` further steps. -/
def dormantState (n : Nat) : Engine :=
  (runCmds (dormantCmds ++ List.replicate n .step)).getD initEngine

/-! # Theorems -/

/-! ## Buffer-store lemmas -/

theorem bufSet_length (st : Store) (i : Nat) (v : List Nat) :
    (bufSet st i v).length = st.length :=
  List.length_set st i v

theorem bufGet_bufSet_ne {i j : Nat} (st : Store) (v : List Nat)
    (h : i ≠ j) : bufGet (bufSet st i v) j = bufGet st j := by
  simp [bufGet, bufSet, List.getD_eq_getElem?_getD, List.getElem?_set_ne h]

theorem bufGet_bufSet_self {i : Nat} (st : Store) (v : List Nat)
    (h : i < st.length) : bufGet (bufSet st i v) i = v := by
  simp [bufGet, bufSet, List.getD_eq_getElem?_getD, List.getElem?_set_self h]

theorem bufGet_bufSet_nil (st : Store) (i : Nat) :
    bufGet (bufSet st i []) i = [] := by
  by_cases h : i < st.length
  · simp [bufGet_bufSet_self st _ h]
  · simp [bufGet, bufSet, List.getD_eq_getElem?_getD, List.getElem?_set, h]

theorem bufSet_self (st : Store) (i : Nat) :
    bufSet st i (bufGet st i) = st := by
  induction st generalizing i with
  | nil => rfl
  | cons a t ih =>
    cases i with
    | zero => rfl
    | succ n =>
      show a :: bufSet t n ((a :: t).getD (n + 1) []) = a :: t
      rw [List.getD_cons_succ]
      rw [show t.getD n [] = bufGet t n from rfl, ih]

theorem bufSet_bufSet (st : Store) (i : Nat) (v v' : List Nat) :
    bufSet (bufSet st i v) i v' = bufSet st i v' :=
  List.set_set v v' st i

/-! ## `pollConn` lemmas -/

theorem pollConn_willSend (time : Nat) (st : Store) (c : Chan) (w v : Nat) :
    pollConn time st c (.willSend w v) =
      some (.waiting,
        if w ≤ time then chanSend (bufSet st c.inbox []) c [v]
        else bufSet st c.inbox []) := rfl

/-- Claim C1, counterexample.  A connection in `WillSend(5, 1)` polled at time
3 (`time < at_time`) is not left unchanged: `IncMachine::poll` moves it
to `Waiting` unconditionally (`src/inc_machine.rs:53` runs whether or
not the send fired), so the claimed "still `WillSend(at_time, value)`"
is false. -/
theorem willSend_early_poll_not_unchanged :
    pollConn 3 [[], []] ⟨0, 1, 0, 1⟩ (.willSend 5 1) =
      some (.waiting, [[], []]) ∧
    ConnectionInfo.waiting ≠ .willSend 5 1 := by
  constructor
  · rfl
  · intro h; cases h

/-- Claim C1 (amended): polling a `WillSend(at_time, value)` connection always
yields `Waiting`; the single byte `value` is appended to the
connection's outbox iff `time ≥ at_time`, and when `time < at_time`
nothing is sent (the only buffer change is the unconditional inbox
drain) — the scheduled transmission is dropped rather than kept. -/
theorem willSend_poll_sends_iff_due_and_resets
    (time : Nat) (st : Store) (c : Chan) (w v : Nat)
    (hwf : ChanWF st c) :
    ∃ st', pollConn time st c (.willSend w v) = some (.waiting, st') ∧
      (w ≤ time → bufGet st' c.outbox = bufGet st c.outbox ++ [v]) ∧
      (time < w → st' = bufSet st c.inbox []) := by
  obtain ⟨hne, hin, hout⟩ := hwf
  refine ⟨_, pollConn_willSend time st c w v, ?_, ?_⟩
  · intro hle
    rw [if_pos hle]
    unfold chanSend
    rw [bufGet_bufSet_self _ _ (by rw [bufSet_length]; exact hout)]
    rw [bufGet_bufSet_ne st [] hne]
  · intro hlt
    rw [if_neg (by omega)]

theorem willSend_poll_sends_iff_due_and_resets_witness :
    ∃ st', pollConn 7 [[], []] ⟨0, 1, 0, 1⟩ (.willSend 5 9) =
        some (.waiting, st') ∧
      (5 ≤ 7 → bufGet st' 1 = bufGet [[], []] 1 ++ [9]) ∧
      (7 < 5 → st' = bufSet [[], []] 0 []) :=
  willSend_poll_sends_iff_due_and_resets 7 [[], []] ⟨0, 1, 0, 1⟩ 5 9
    (by decide)

/-- Claim C8: a `Waiting` connection that received first byte `n` computes the
new value as `n + 1` saturated at 255 and the new wake time as
`time + new_value` under `u64` `checked_add`: on overflow the poll
panics (`none`) — the result is never a clamped or wrapped
`WillSend`. -/
theorem inc_next_time_overflow_panics
    (time : Nat) (st : Store) (c : Chan) (n : Nat) (tl : List Nat)
    (hin : bufGet st c.inbox = n :: tl) :
    pollConn time st c .waiting =
      if time + min (n + 1) 255 < 2 ^ 64 then
        some (.willSend (time + min (n + 1) 255) (min (n + 1) 255),
              bufSet st c.inbox [])
      else none := by
  unfold pollConn
  rw [hin]
  rfl

theorem inc_next_time_overflow_panics_witness :
    pollConn (2 ^ 64 - 1) [[0], []] ⟨0, 1, 0, 1⟩ .waiting = none := by
  rw [inc_next_time_overflow_panics (2 ^ 64 - 1) [[0], []] ⟨0, 1, 0, 1⟩ 0 []
    (by rfl)]
  norm_num

/-- Claim C10: polling a connection in `WillSend` state drains its inbox and
discards the contents unread — the poll's result is the same as if the
inbox had been empty, the inbox ends the poll empty, and the connection
ends in `Waiting`, never in the increment-and-reply `WillSend`
transition a received byte would otherwise cause. -/
theorem willSend_poll_discards_inbox
    (time : Nat) (st : Store) (c : Chan) (w v : Nat)
    (hne : c.inbox ≠ c.outbox) :
    pollConn time st c (.willSend w v) =
      pollConn time (bufSet st c.inbox []) c (.willSend w v) ∧
    ∀ ci' st', pollConn time st c (.willSend w v) = some (ci', st') →
      ci' = .waiting ∧ bufGet st' c.inbox = [] := by
  constructor
  · rw [pollConn_willSend, pollConn_willSend, bufSet_bufSet]
  · intro ci' st' h
    rw [pollConn_willSend] at h
    have h' := Option.some.inj h
    have hci : ConnectionInfo.waiting = ci' := congrArg Prod.fst h'
    have hst :
        (if w ≤ time then chanSend (bufSet st c.inbox []) c [v]
         else bufSet st c.inbox []) = st' := congrArg Prod.snd h'
    refine ⟨hci.symm, ?_⟩
    rw [← hst]
    by_cases hle : w ≤ time
    · rw [if_pos hle]
      unfold chanSend
      rw [bufGet_bufSet_ne _ _ (Ne.symm hne)]
      exact bufGet_bufSet_nil st c.inbox
    · rw [if_neg hle]
      exact bufGet_bufSet_nil st c.inbox

theorem willSend_poll_discards_inbox_witness :
    pollConn 4 [[9], []] ⟨0, 1, 0, 1⟩ (.willSend 9 1) =
      pollConn 4 (bufSet [[9], []] 0 []) ⟨0, 1, 0, 1⟩ (.willSend 9 1) ∧
    ∀ ci' st',
      pollConn 4 [[9], []] ⟨0, 1, 0, 1⟩ (.willSend 9 1) = some (ci', st') →
      ci' = .waiting ∧ bufGet st' 0 = [] :=
  willSend_poll_discards_inbox 4 [[9], []] ⟨0, 1, 0, 1⟩ 9 1 (by decide)

/-! ## Event-order lemmas -/

theorem evLt_trans {p q r : Nat × Nat} (h1 : evLt p q) (h2 : evLt q r) :
    evLt p r := by
  unfold evLt at *
  omega

theorem evLt_fst_le {p q : Nat × Nat} (h : evLt p q) : p.1 ≤ q.1 := by
  unfold evLt at h
  omega

theorem evLt_resolve {p q : Nat × Nat} (h1 : ¬ evLt p q) (h2 : p ≠ q) :
    evLt q p := by
  obtain ⟨a, b⟩ := p
  obtain ⟨c, d⟩ := q
  simp only [ne_eq, Prod.mk.injEq] at h2
  unfold evLt at *
  dsimp only at *
  omega

theorem mem_insertEvent {a p : Nat × Nat} (l : List (Nat × Nat)) :
    a ∈ insertEvent p l ↔ a = p ∨ a ∈ l := by
  induction l with
  | nil => simp [insertEvent]
  | cons q rest ih =>
    by_cases h1 : evLt p q
    · simp only [insertEvent]
      rw [if_pos h1]
      simp only [List.mem_cons]
    · by_cases h2 : p = q
      · simp only [insertEvent]
        rw [if_neg h1, if_pos h2]
        subst h2
        simp only [List.mem_cons]
        tauto
      · simp only [insertEvent]
        rw [if_neg h1, if_neg h2]
        simp only [List.mem_cons, ih]
        tauto

theorem insertEvent_pairwise {p : Nat × Nat} {l : List (Nat × Nat)}
    (hs : l.Pairwise evLt) : (insertEvent p l).Pairwise evLt := by
  induction l with
  | nil => simp [insertEvent]
  | cons q rest ih =>
    rw [List.pairwise_cons] at hs
    obtain ⟨hq, hrest⟩ := hs
    unfold insertEvent
    by_cases h1 : evLt p q
    · rw [if_pos h1]
      refine List.Pairwise.cons ?_ (List.Pairwise.cons hq hrest)
      intro b hb
      rcases List.mem_cons.mp hb with rfl | hb'
      · exact h1
      · exact evLt_trans h1 (hq b hb')
    · rw [if_neg h1]
      by_cases h2 : p = q
      · rw [if_pos h2]
        exact List.Pairwise.cons hq hrest
      · rw [if_neg h2]
        refine List.Pairwise.cons ?_ (ih hrest)
        intro b hb
        rcases (mem_insertEvent rest).mp hb with rfl | hb'
        · exact evLt_resolve h1 h2
        · exact hq b hb'

theorem mem_optInsert {q : Nat × Nat} (o : Option Nat) (j : Nat)
    (evs : List (Nat × Nat)) :
    q ∈ optInsert o j evs ↔
      (∃ t', o = some t' ∧ q = (t', j)) ∨ q ∈ evs := by
  cases o with
  | none => simp [optInsert]
  | some t' =>
    simp only [optInsert, mem_insertEvent, Option.some.injEq]
    constructor
    · rintro (rfl | hq)
      · exact Or.inl ⟨t', rfl, rfl⟩
      · exact Or.inr hq
    · rintro (⟨t2, rfl, rfl⟩ | hq)
      · exact Or.inl rfl
      · exact Or.inr hq

theorem optInsert_pairwise (o : Option Nat) (j : Nat)
    {evs : List (Nat × Nat)} (hs : evs.Pairwise evLt) :
    (optInsert o j evs).Pairwise evLt := by
  cases o with
  | none => exact hs
  | some t' => exact insertEvent_pairwise hs

/-! ## Move-step lemmas -/

theorem moveMessages_fst (st : Store) (c1 c2 : Chan) :
    ((moveMessages st c1 c2).1 = true) ↔ bufGet st c1.outbox ≠ [] := by
  by_cases hb : bufGet st c1.outbox = [] <;>
    simp [moveMessages, takeAllBuf, hb]

theorem moveMessages_store (st : Store) (c1 c2 : Chan)
    (h : c2.inbox = c1.outbox) : (moveMessages st c1 c2).2 = st := by
  by_cases hb : bufGet st c1.outbox = []
  · simp only [moveMessages, takeAllBuf, if_pos hb]
    rw [← hb]
    exact bufSet_self st c1.outbox
  · simp only [moveMessages, takeAllBuf, if_neg hb, h]
    rw [bufGet_bufSet_nil, List.nil_append, bufSet_bufSet]
    exact bufSet_self st c1.outbox

theorem movePair_store (st : Store) (c1 c2 : Chan) (hcw : crossWired (c1, c2)) :
    (moveMessages (moveMessages st c1 c2).2 c2 c1).2 = st := by
  rw [moveMessages_store st c1 c2 hcw.1,
      moveMessages_store st c2 c1 hcw.2]

theorem moveAll_store (t : Nat) (pairs : List (Chan × Chan))
    (evs : List (Nat × Nat)) (st : Store)
    (hcw : ∀ p ∈ pairs, crossWired p) :
    (moveAll t pairs evs st).2 = st := by
  induction pairs generalizing evs st with
  | nil => rfl
  | cons pr rest ih =>
    obtain ⟨c1, c2⟩ := pr
    have h1 : crossWired (c1, c2) := hcw _ (List.mem_cons_self _ _)
    show (moveAll t rest _ _).2 = st
    rw [movePair_store st c1 c2 h1]
    exact ih _ _ (fun p hp => hcw p (List.mem_cons_of_mem _ hp))

theorem mem_movePairEvents {q : Nat × Nat} (t : Nat) (c1 c2 : Chan)
    (st : Store) (evs : List (Nat × Nat)) :
    q ∈ movePairEvents t c1 c2 st evs ↔
      q ∈ evs ∨
      (q = (t, c1.them) ∧ bufGet st c1.outbox ≠ []) ∨
      (q = (t, c2.them) ∧ bufGet (moveMessages st c1 c2).2 c2.outbox ≠ []) := by
  unfold movePairEvents
  by_cases h1 : bufGet st c1.outbox = [] <;>
    by_cases h2 : bufGet (moveMessages st c1 c2).2 c2.outbox = [] <;>
      simp [moveMessages_fst, h1, h2, mem_insertEvent] <;>
      tauto

theorem movePairEvents_pairwise (t : Nat) (c1 c2 : Chan) (st : Store)
    {evs : List (Nat × Nat)} (hs : evs.Pairwise evLt) :
    (movePairEvents t c1 c2 st evs).Pairwise evLt := by
  unfold movePairEvents
  split <;> split <;>
    first
      | exact insertEvent_pairwise (insertEvent_pairwise hs)
      | exact insertEvent_pairwise hs
      | exact hs

/-! ## C2: a send is immediately in the peer's inbox -/

/-- Claim C2, counterexample.  `Channel::new` wires the first end's outbox and
the second end's inbox to the same leaked buffer, so after side A sends
`[7]` — with no move step in between — side B's `recv()` already
returns `[7]`, not nothing. -/
theorem send_visible_to_peer_before_move :
    (channelNew 0 0 1).1.outbox = (channelNew 0 0 1).2.inbox ∧
    (chanRecv (chanSend [[], []] (channelNew 0 0 1).1 [7])
        (channelNew 0 0 1).2).1 = [7] ∧
    ([7] : List Nat) ≠ [] := by decide

/-- Claim C2 (amended): a send appends to the one shared buffer that is
simultaneously the sender's outbox and the peer's inbox (and touches no
other slot), so the peer's `recv()` sees the bytes immediately; the
Engine's move step transfers nothing — under the registry's
cross-wiring it leaves every buffer unchanged — and serves only to
detect pending bytes (its flag is exactly "the outbox was non-empty")
so the receiving machine can be re-enqueued. -/
theorem send_targets_shared_buffer_move_is_detection
    (st : Store) (n a b : Nat) (data : List Nat)
    (hlen : n + 1 < st.length) :
    crossWired (channelNew n a b) ∧
    (chanRecv (chanSend st (channelNew n a b).1 data)
        (channelNew n a b).2).1
      = bufGet st (channelNew n a b).1.outbox ++ data ∧
    (∀ j, j ≠ (channelNew n a b).1.outbox →
      bufGet (chanSend st (channelNew n a b).1 data) j = bufGet st j) ∧
    (∀ time pairs evs, (∀ p ∈ pairs, crossWired p) →
      (moveAll time pairs evs st).2 = st) ∧
    (∀ c1 c2 : Chan, ((moveMessages st c1 c2).1 = true) ↔
      bufGet st c1.outbox ≠ []) := by
  refine ⟨⟨rfl, rfl⟩, ?_, ?_, ?_, ?_⟩
  · show bufGet (chanSend st (channelNew n a b).1 data) (n + 1) = _
    unfold chanSend
    exact bufGet_bufSet_self _ _ hlen
  · intro j hj
    unfold chanSend
    exact bufGet_bufSet_ne _ _ (Ne.symm hj)
  · intro time pairs evs hcw
    exact moveAll_store time pairs evs st hcw
  · intro c1 c2
    exact moveMessages_fst st c1 c2

theorem send_targets_shared_buffer_move_is_detection_witness :
    crossWired (channelNew 0 0 1) ∧
    (chanRecv (chanSend [[], []] (channelNew 0 0 1).1 [7])
        (channelNew 0 0 1).2).1
      = bufGet [[], []] (channelNew 0 0 1).1.outbox ++ [7] ∧
    (∀ j, j ≠ (channelNew 0 0 1).1.outbox →
      bufGet (chanSend [[], []] (channelNew 0 0 1).1 [7]) j
        = bufGet [[], []] j) ∧
    (∀ time pairs evs, (∀ p ∈ pairs, crossWired p) →
      (moveAll time pairs evs [[], []]).2 = [[], []]) ∧
    (∀ c1 c2 : Chan, ((moveMessages [[], []] c1 c2).1 = true) ↔
      bufGet [[], []] c1.outbox ≠ []) :=
  send_targets_shared_buffer_move_is_detection [[], []] 0 0 1 [7]
    (by decide)

/-! ## Wire lemmas and claims -/

theorem wireIntake_none_iff (w : Wire) (time : Int)
    (inc : List (Nat × List Nat)) :
    wireIntake w time inc = none ↔
      ∃ p ∈ inc, p.1 ≠ w.end1 ∧ p.1 ≠ w.end2 := by
  induction inc with
  | nil => simp [wireIntake]
  | cons pr rest ih =>
    obtain ⟨s, m⟩ := pr
    simp only [wireIntake]
    cases hroute : routeDest w s with
    | none =>
      have hv : s ≠ w.end1 ∧ s ≠ w.end2 := by
        unfold routeDest at hroute
        split_ifs at hroute with ha hb
        exact ⟨ha, hb⟩
      constructor
      · intro _
        exact ⟨(s, m), List.mem_cons_self _ _, hv⟩
      · intro _
        rfl
    | some d =>
      have hval : s = w.end1 ∨ s = w.end2 := by
        unfold routeDest at hroute
        split_ifs at hroute with ha hb
        · exact Or.inl ha
        · exact Or.inr hb
      cases hrest : wireIntake w time rest with
      | none =>
        constructor
        · intro _
          obtain ⟨p, hp, h⟩ := ih.mp hrest
          exact ⟨p, List.mem_cons_of_mem _ hp, h⟩
        · intro _
          rfl
      | some l =>
        constructor
        · intro hcon
          simp at hcon
        · rintro ⟨p, hp, hv1, hv2⟩
          rcases List.mem_cons.mp hp with heq | hp'
          · subst heq
            rcases hval with h | h
            · exact absurd h hv1
            · exact absurd h hv2
          · have hr := ih.mpr ⟨p, hp', hv1, hv2⟩
            rw [hrest] at hr
            exact absurd hr (by simp)

/-- Claim C9: a `Wire` poll panics if and only if some inbound pair's
sender matches neither configured endpoint; a sender equal to one
endpoint has its payload routed to the other endpoint. -/
theorem wire_invalid_sender_panics_iff (w : Wire) (time : Int)
    (inc : List (Nat × List Nat)) :
    (Wire.poll w time inc = none ↔
      ∃ p ∈ inc, p.1 ≠ w.end1 ∧ p.1 ≠ w.end2) ∧
    ∀ s : Nat, s = w.end1 ∨ s = w.end2 →
      ∃ d, routeDest w s = some d ∧
        ((s = w.end1 ∧ d = w.end2) ∨ (s = w.end2 ∧ d = w.end1)) := by
  constructor
  · rw [← wireIntake_none_iff w time inc]
    unfold Wire.poll
    cases h : wireIntake w time inc <;> simp [h]
  · intro s hs
    by_cases h1 : s = w.end1
    · exact ⟨w.end2, by simp [routeDest, h1], Or.inl ⟨h1, rfl⟩⟩
    · have h2 : s = w.end2 := hs.resolve_left h1
      exact ⟨w.end1, by simp [routeDest, h1, h2], Or.inr ⟨h2, rfl⟩⟩

theorem wire_invalid_sender_panics_iff_witness :
    Wire.poll ⟨1, 2, 5, []⟩ 0 [(3, [9])] = none :=
  (wire_invalid_sender_panics_iff ⟨1, 2, 5, []⟩ 0 [(3, [9])]).1.mpr
    ⟨(3, [9]), by decide, by decide, by decide⟩

/-- Claim C6, counterexample.  Wire with delay 5: a payload from `end1` at
time 0 is queued for time 5; a second payload from `end1` at time 1 is
queued for time 6.  While the second payload is queued, `poll_at`
reports `some 5` — the head's delivery time — not the second payload's
`T + d = 6`, so "poll_at reports T+d while it is queued" is false. -/
theorem wire_pollAt_not_each_payload_time :
    Wire.poll ⟨1, 2, 5, []⟩ 0 [(1, [10])] =
      some ([], ⟨1, 2, 5, [(5, 2, [10])]⟩) ∧
    Wire.poll ⟨1, 2, 5, [(5, 2, [10])]⟩ 1 [(1, [11])] =
      some ([], ⟨1, 2, 5, [(5, 2, [10]), (6, 2, [11])]⟩) ∧
    (6, 2, [11]) ∈ Wire.outgoing ⟨1, 2, 5, [(5, 2, [10]), (6, 2, [11])]⟩ ∧
    ((6 : Int), 2, [11]).1 = 1 + 5 ∧
    Wire.pollAt ⟨1, 2, 5, [(5, 2, [10]), (6, 2, [11])]⟩ = some 5 ∧
    some (5 : Int) ≠ some (1 + 5 : Int) := by
  refine ⟨?_, ?_, ?_, ?_, ?_, ?_⟩ <;> decide

theorem drainReady_eq (time : Int) (q : List WireEntry) :
    drainReady time q =
      ((q.takeWhile (fun en => decide (en.1 ≤ time))).map (fun en => en.2),
       q.dropWhile (fun en => decide (en.1 ≤ time))) := by
  induction q with
  | nil => rfl
  | cons en rest ih =>
    obtain ⟨t, d, m⟩ := en
    by_cases h : t ≤ time
    · simp [drainReady, List.takeWhile_cons, List.dropWhile_cons, h, ih]
    · simp [drainReady, List.takeWhile_cons, List.dropWhile_cons, h]

theorem wireIntake_some_spec (w : Wire) (time : Int)
    (inc : List (Nat × List Nat)) (newE : List WireEntry)
    (h : wireIntake w time inc = some newE) :
    newE.map (fun en => en.2.2) = inc.map Prod.snd ∧
    ∀ en ∈ newE, en.1 = time + w.delay := by
  induction inc generalizing newE with
  | nil =>
    cases h
    exact ⟨rfl, by simp⟩
  | cons pr rest ih =>
    obtain ⟨s, m⟩ := pr
    simp only [wireIntake] at h
    cases hroute : routeDest w s with
    | none => rw [hroute] at h; cases h
    | some d =>
      rw [hroute] at h
      cases hrest : wireIntake w time rest with
      | none => rw [hrest] at h; cases h
      | some l =>
        rw [hrest] at h
        have h' := Option.some.inj h
        obtain ⟨hmap, htimes⟩ := ih l hrest
        subst h'
        constructor
        · simp [hmap]
        · intro en hen
          rcases List.mem_cons.mp hen with rfl | hen'
          · rfl
          · exact htimes en hen'

theorem pairwise_of_const_fst {l : List WireEntry} {v : Int}
    (h : ∀ en ∈ l, en.1 = v) :
    l.Pairwise (fun x y : WireEntry => x.1 ≤ y.1) := by
  induction l with
  | nil => exact List.Pairwise.nil
  | cons a rest ih =>
    refine List.Pairwise.cons ?_
      (ih (fun en hen => h en (List.mem_cons_of_mem _ hen)))
    intro b hb
    rw [h a (List.mem_cons_self _ _), h b (List.mem_cons_of_mem _ hb)]

theorem dropWhile_mem_gt (time : Int) {l : List WireEntry}
    (hs : l.Pairwise (fun x y : WireEntry => x.1 ≤ y.1)) :
    ∀ en ∈ l.dropWhile (fun en => decide (en.1 ≤ time)), time < en.1 := by
  induction l with
  | nil => simp
  | cons a rest ih =>
    rw [List.pairwise_cons] at hs
    obtain ⟨ha, hrest⟩ := hs
    by_cases h : a.1 ≤ time
    · rw [List.dropWhile_cons, if_pos (by simpa using h)]
      exact ih hrest
    · rw [List.dropWhile_cons, if_neg (by simpa using h)]
      intro en hen
      rcases List.mem_cons.mp hen with rfl | hen'
      · omega
      · have := ha en hen'
        omega

theorem pollAt_head_le (w' : Wire)
    (hs : w'.outgoing.Pairwise (fun x y : WireEntry => x.1 ≤ y.1))
    {en : WireEntry} (hen : en ∈ w'.outgoing) :
    ∃ hd, Wire.pollAt w' = some hd ∧ hd ≤ en.1 := by
  cases houts : w'.outgoing with
  | nil => rw [houts] at hen; cases hen
  | cons a rest =>
    rw [houts] at hs hen
    rw [List.pairwise_cons] at hs
    refine ⟨a.1, ?_, ?_⟩
    · unfold Wire.pollAt
      rw [houts]
      rfl
    · rcases List.mem_cons.mp hen with rfl | h
      · exact le_refl _
      · exact hs.1 en h

/-- Claim C6 (amended): for a `Wire` with delay `d`, under the polling
contract's non-decreasing times (expressed as: the queued delivery
times are sorted and at most `time + d`), one `poll` stamps every
inbound payload `time + d`, appends them at the tail in arrival order,
emits exactly the longest ready prefix (delivery time `≤ time`) in FIFO
order, and keeps the rest: every still-queued entry is strictly in the
future and due by `time + d`, and `poll_at` reports the delivery time
of the FIFO head, which is a lower bound for every queued payload's
own `T + d` (and equals it when that payload is the head). -/
theorem wire_delay_fifo_characterization
    (w : Wire) (time : Int) (inc out : List (Nat × List Nat)) (w' : Wire)
    (hsorted : w.outgoing.Pairwise (fun x y : WireEntry => x.1 ≤ y.1))
    (hub : ∀ en ∈ w.outgoing, en.1 ≤ time + w.delay)
    (hpoll : Wire.poll w time inc = some (out, w')) :
    ∃ newE, wireIntake w time inc = some newE ∧
      newE.map (fun en => en.2.2) = inc.map Prod.snd ∧
      (∀ en ∈ newE, en.1 = time + w.delay) ∧
      out = ((w.outgoing ++ newE).takeWhile
              (fun en => decide (en.1 ≤ time))).map (fun en => en.2) ∧
      w'.outgoing = (w.outgoing ++ newE).dropWhile
              (fun en => decide (en.1 ≤ time)) ∧
      w'.delay = w.delay ∧ w'.end1 = w.end1 ∧ w'.end2 = w.end2 ∧
      w'.outgoing.Pairwise (fun x y : WireEntry => x.1 ≤ y.1) ∧
      (∀ en ∈ w'.outgoing, time < en.1 ∧ en.1 ≤ time + w.delay) ∧
      (∀ en ∈ w'.outgoing, ∃ hd, Wire.pollAt w' = some hd ∧ hd ≤ en.1) := by
  unfold Wire.poll at hpoll
  cases hintake : wireIntake w time inc with
  | none => rw [hintake] at hpoll; cases hpoll
  | some newE =>
    rw [hintake] at hpoll
    dsimp only at hpoll
    rw [drainReady_eq] at hpoll
    dsimp only at hpoll
    have h' := Option.some.inj hpoll
    have hout : out = ((w.outgoing ++ newE).takeWhile
        (fun en => decide (en.1 ≤ time))).map (fun en => en.2) :=
      (congrArg Prod.fst h').symm
    have hw' : w' = Wire.mk w.end1 w.end2 w.delay
        (List.dropWhile (fun en => decide (en.1 ≤ time))
          (w.outgoing ++ newE)) :=
      (congrArg Prod.snd h').symm
    obtain ⟨hmap, htimes⟩ := wireIntake_some_spec w time inc newE hintake
    have hq : (w.outgoing ++ newE).Pairwise
        (fun x y : WireEntry => x.1 ≤ y.1) := by
      rw [List.pairwise_append]
      refine ⟨hsorted, pairwise_of_const_fst htimes, ?_⟩
      intro x hx y hy
      rw [htimes y hy]
      exact hub x hx
    have hq' : ((w.outgoing ++ newE).dropWhile
        (fun en => decide (en.1 ≤ time))).Pairwise
        (fun x y : WireEntry => x.1 ≤ y.1) :=
      List.Pairwise.sublist (List.dropWhile_sublist _) hq
    subst hout hw'
    refine ⟨newE, rfl, hmap, htimes, rfl, rfl, rfl, rfl, rfl, hq', ?_, ?_⟩
    · intro en hen
      refine ⟨dropWhile_mem_gt time hq en hen, ?_⟩
      have hmem : en ∈ w.outgoing ++ newE :=
        (List.dropWhile_sublist _).subset hen
      rcases List.mem_append.mp hmem with h | h
      · exact hub en h
      · rw [htimes en h]
    · intro en hen
      exact pollAt_head_le _ hq' hen

theorem wire_delay_fifo_characterization_witness :
    ∃ newE : List WireEntry,
      wireIntake ⟨1, 2, 5, [(5, 2, [10])]⟩ 6 [(2, [12])] = some newE ∧
      newE.map (fun en => en.2.2) =
        ([(2, [12])] : List (Nat × List Nat)).map Prod.snd ∧
      (∀ en ∈ newE, en.1 = 6 + 5) ∧
      ([(2, [10])] : List (Nat × List Nat)) =
        ((([(5, 2, [10])] : List WireEntry) ++ newE).takeWhile
          (fun en => decide (en.1 ≤ (6 : Int)))).map (fun en => en.2) ∧
      ([(11, 1, [12])] : List WireEntry) =
        (([(5, 2, [10])] : List WireEntry) ++ newE).dropWhile
          (fun en => decide (en.1 ≤ (6 : Int))) ∧
      (5 : Int) = 5 ∧ (1 : Nat) = 1 ∧ (2 : Nat) = 2 ∧
      ([(11, 1, [12])] : List WireEntry).Pairwise
        (fun x y : WireEntry => x.1 ≤ y.1) ∧
      (∀ en ∈ ([(11, 1, [12])] : List WireEntry),
        6 < en.1 ∧ en.1 ≤ 6 + 5) ∧
      (∀ en ∈ ([(11, 1, [12])] : List WireEntry),
        ∃ hd, Wire.pollAt ⟨1, 2, 5, [(11, 1, [12])]⟩ = some hd ∧
          hd ≤ en.1) :=
  wire_delay_fifo_characterization ⟨1, 2, 5, [(5, 2, [10])]⟩ 6 [(2, [12])]
    [(2, [10])] ⟨1, 2, 5, [(11, 1, [12])]⟩ (by decide) (by decide)
    (by decide)

/-! ## `poll_at` and `poll` characterization -/

theorem wsTimes_cons_willSend (c : Chan) (w v : Nat)
    (l : List (Chan × ConnectionInfo)) :
    wsTimes ((c, .willSend w v) :: l) = w :: wsTimes l := by
  simp [wsTimes, List.filterMap_cons]

theorem wsTimes_cons_waiting (c : Chan) (l : List (Chan × ConnectionInfo)) :
    wsTimes ((c, .waiting) :: l) = wsTimes l := by
  simp [wsTimes, List.filterMap_cons]

theorem mem_wsTimes_iff (l : List (Chan × ConnectionInfo)) (w : Nat) :
    w ∈ wsTimes l ↔ ∃ c v, (c, ConnectionInfo.willSend w v) ∈ l := by
  rw [wsTimes, List.mem_filterMap]
  constructor
  · rintro ⟨p, hp, hf⟩
    obtain ⟨c, ci⟩ := p
    cases ci with
    | willSend w' v =>
      have : w' = w := by
        have hf' : some w' = some w := hf
        exact Option.some.inj hf'
      subst this
      exact ⟨c, v, hp⟩
    | waiting => exact absurd hf (by simp)
  · rintro ⟨c, v, hm⟩
    exact ⟨(c, .willSend w v), hm, rfl⟩

theorem foldl_pollAtStep_none_iff (l : List (Chan × ConnectionInfo)) :
    ∀ acc : Option Nat,
      (l.foldl pollAtStep acc = none ↔ acc = none ∧ wsTimes l = []) := by
  induction l with
  | nil => intro acc; simp [wsTimes]
  | cons p rest ih =>
    intro acc
    obtain ⟨c, ci⟩ := p
    cases ci with
    | willSend w v =>
      cases acc with
      | none =>
        rw [List.foldl_cons, show pollAtStep none (c, .willSend w v)
            = some w from rfl, ih (some w), wsTimes_cons_willSend]
        simp
      | some a =>
        rw [List.foldl_cons, show pollAtStep (some a) (c, .willSend w v)
            = some (min w a) from rfl, ih (some (min w a)),
          wsTimes_cons_willSend]
        simp
    | waiting =>
      rw [List.foldl_cons, show pollAtStep acc (c, .waiting) = acc from rfl,
        ih acc, wsTimes_cons_waiting]

theorem foldl_pollAtStep_some (l : List (Chan × ConnectionInfo)) :
    ∀ (acc : Option Nat) (t : Nat), l.foldl pollAtStep acc = some t →
      (t ∈ wsTimes l ∨ acc = some t) ∧ (∀ w ∈ wsTimes l, t ≤ w) ∧
      (∀ a, acc = some a → t ≤ a) := by
  induction l with
  | nil =>
    intro acc t h
    rw [List.foldl_nil] at h
    refine ⟨Or.inr h, by simp [wsTimes], ?_⟩
    intro a ha
    rw [h] at ha
    rw [Option.some.inj ha]
  | cons p rest ih =>
    intro acc t h
    obtain ⟨c, ci⟩ := p
    cases ci with
    | waiting =>
      rw [List.foldl_cons, show pollAtStep acc (c, .waiting) = acc from rfl]
        at h
      rw [wsTimes_cons_waiting]
      exact ih acc t h
    | willSend w v =>
      rw [wsTimes_cons_willSend]
      cases acc with
      | none =>
        rw [List.foldl_cons, show pollAtStep none (c, .willSend w v)
            = some w from rfl] at h
        obtain ⟨h1, h2, h3⟩ := ih (some w) t h
        have htw : t ≤ w := h3 w rfl
        refine ⟨?_, ?_, ?_⟩
        · rcases h1 with h1 | h1
          · exact Or.inl (List.mem_cons_of_mem _ h1)
          · have : w = t := Option.some.inj h1
            exact Or.inl (this ▸ List.mem_cons_self _ _)
        · intro w' hw'
          rcases List.mem_cons.mp hw' with rfl | hw'
          · exact htw
          · exact h2 w' hw'
        · intro a ha
          cases ha
      | some a =>
        rw [List.foldl_cons, show pollAtStep (some a) (c, .willSend w v)
            = some (min w a) from rfl] at h
        obtain ⟨h1, h2, h3⟩ := ih (some (min w a)) t h
        have htm : t ≤ min w a := h3 _ rfl
        refine ⟨?_, ?_, ?_⟩
        · rcases h1 with h1 | h1
          · exact Or.inl (List.mem_cons_of_mem _ h1)
          · have ht : min w a = t := Option.some.inj h1
            rcases le_total w a with hcase | hcase
            · left
              rw [← ht, Nat.min_eq_left hcase]
              exact List.mem_cons_self _ _
            · right
              rw [← ht, Nat.min_eq_right hcase]
        · intro w' hw'
          rcases List.mem_cons.mp hw' with rfl | hw'
          · exact le_trans htm (Nat.min_le_left _ _)
          · exact h2 w' hw'
        · intro a' ha'
          rw [← Option.some.inj ha']
          exact le_trans htm (Nat.min_le_right _ _)

theorem pollAt_none_iff (m : IncMachine) :
    m.pollAt = none ↔ wsTimes m.connections = [] := by
  unfold IncMachine.pollAt
  rw [foldl_pollAtStep_none_iff]
  simp

theorem pollAt_some_spec (m : IncMachine) (t : Nat) (h : m.pollAt = some t) :
    t ∈ wsTimes m.connections ∧ ∀ w ∈ wsTimes m.connections, t ≤ w := by
  unfold IncMachine.pollAt at h
  obtain ⟨h1, h2, _⟩ := foldl_pollAtStep_some _ none t h
  exact ⟨h1.resolve_right (by simp), h2⟩

theorem pollAt_some_of_ws (m : IncMachine) {w : Nat}
    (hw : w ∈ wsTimes m.connections) : ∃ t, m.pollAt = some t ∧ t ≤ w := by
  cases h : m.pollAt with
  | some t => exact ⟨t, rfl, (pollAt_some_spec m t h).2 w hw⟩
  | none =>
    rw [pollAt_none_iff] at h
    rw [h] at hw
    cases hw

theorem pollConn_post {time : Nat} {st : Store} {c : Chan}
    {ci ci' : ConnectionInfo} {st' : Store}
    (h : pollConn time st c ci = some (ci', st')) :
    (ci' = .waiting ∨ ∃ w v, ci' = .willSend w v ∧ time < w) ∧
    st'.length = st.length := by
  cases ci with
  | willSend w v =>
    rw [pollConn_willSend] at h
    have h' := Option.some.inj h
    have hci : ci' = .waiting := (congrArg Prod.fst h').symm
    have hst : st' = (if w ≤ time then chanSend (bufSet st c.inbox []) c [v]
        else bufSet st c.inbox []) := (congrArg Prod.snd h').symm
    refine ⟨Or.inl hci, ?_⟩
    rw [hst]
    by_cases hle : w ≤ time
    · rw [if_pos hle]
      unfold chanSend
      rw [bufSet_length, bufSet_length]
    · rw [if_neg hle, bufSet_length]
  | waiting =>
    unfold pollConn at h
    dsimp only at h
    cases hh : (bufGet st c.inbox).head? with
    | some n =>
      rw [hh] at h
      dsimp only at h
      by_cases hov : time + min (n + 1) 255 < 2 ^ 64
      · rw [if_pos hov] at h
        have h' := Option.some.inj h
        have hci : ci' = .willSend (time + min (n + 1) 255)
            (min (n + 1) 255) := (congrArg Prod.fst h').symm
        have hst : st' = bufSet st c.inbox [] := (congrArg Prod.snd h').symm
        refine ⟨Or.inr ⟨_, _, hci, ?_⟩, by rw [hst, bufSet_length]⟩
        have : 1 ≤ min (n + 1) 255 := le_min (by omega) (by omega)
        omega
      · rw [if_neg hov] at h
        cases h
    | none =>
      rw [hh] at h
      dsimp only at h
      have h' := Option.some.inj h
      have hci : ci' = .waiting := (congrArg Prod.fst h').symm
      have hst : st' = bufSet st c.inbox [] := (congrArg Prod.snd h').symm
      exact ⟨Or.inl hci, by rw [hst, bufSet_length]⟩

theorem pollConns_post {time : Nat} :
    ∀ {l : List (Chan × ConnectionInfo)} {st : Store}
      {l' : List (Chan × ConnectionInfo)} {st' : Store},
      pollConns time l st = some (l', st') →
      st'.length = st.length ∧
      (∀ p ∈ l', p.2 = ConnectionInfo.waiting ∨
        ∃ w v, p.2 = .willSend w v ∧ time < w) := by
  intro l
  induction l with
  | nil =>
    intro st l' st' h
    cases Option.some.inj h
    exact ⟨rfl, by simp⟩
  | cons p rest ih =>
    intro st l' st' h
    obtain ⟨c, ci⟩ := p
    simp only [pollConns] at h
    cases h1 : pollConn time st c ci with
    | none => rw [h1] at h; cases h
    | some r1 =>
      rw [h1] at h
      obtain ⟨ci1, st1⟩ := r1
      dsimp only at h
      cases h2 : pollConns time rest st1 with
      | none => rw [h2] at h; cases h
      | some r2 =>
        rw [h2] at h
        obtain ⟨rest', st2⟩ := r2
        dsimp only at h
        have h' := Option.some.inj h
        have hl' : (c, ci1) :: rest' = l' := congrArg Prod.fst h'
        have hst' : st2 = st' := congrArg Prod.snd h'
        obtain ⟨hb1, _⟩ := pollConn_post h1
        obtain ⟨hlen2, hb2⟩ := ih h2
        refine ⟨?_, ?_⟩
        · rw [← hst', hlen2, (pollConn_post h1).2]
        · intro q hq
          rw [← hl'] at hq
          rcases List.mem_cons.mp hq with rfl | hq'
          · exact hb1
          · exact hb2 q hq'

theorem moveAll_events_super (t : Nat) (pairs : List (Chan × Chan)) :
    ∀ (evs : List (Nat × Nat)) (st : Store) (q : Nat × Nat), q ∈ evs →
      q ∈ (moveAll t pairs evs st).1 := by
  induction pairs with
  | nil => intro evs st q hq; exact hq
  | cons pr rest ih =>
    intro evs st q hq
    obtain ⟨c1, c2⟩ := pr
    exact ih _ _ q ((mem_movePairEvents t c1 c2 st evs).mpr (Or.inl hq))

theorem moveAll_events_pairwise (t : Nat) (pairs : List (Chan × Chan)) :
    ∀ (evs : List (Nat × Nat)) (st : Store), evs.Pairwise evLt →
      (moveAll t pairs evs st).1.Pairwise evLt := by
  induction pairs with
  | nil => intro evs st hs; exact hs
  | cons pr rest ih =>
    intro evs st hs
    obtain ⟨c1, c2⟩ := pr
    exact ih _ _ (movePairEvents_pairwise t c1 c2 st hs)

theorem moveAll_events_sub (t : Nat) (pairs : List (Chan × Chan))
    (hcw : ∀ p ∈ pairs, crossWired p) :
    ∀ (evs : List (Nat × Nat)) (st : Store) (q : Nat × Nat),
      q ∈ (moveAll t pairs evs st).1 →
      q ∈ evs ∨ (q.1 = t ∧ ∃ p ∈ pairs,
        (q.2 = p.1.them ∧ bufGet st p.1.outbox ≠ []) ∨
        (q.2 = p.2.them ∧ bufGet st p.2.outbox ≠ [])) := by
  induction pairs with
  | nil => intro evs st q hq; exact Or.inl hq
  | cons pr rest ih =>
    intro evs st q hq
    obtain ⟨c1, c2⟩ := pr
    have h1 : crossWired (c1, c2) := hcw _ (List.mem_cons_self _ _)
    have hstep : moveAll t ((c1, c2) :: rest) evs st =
        moveAll t rest (movePairEvents t c1 c2 st evs) st := by
      show moveAll t rest _ _ = _
      rw [movePair_store st c1 c2 h1]
    rw [hstep] at hq
    rcases ih (fun p hp => hcw p (List.mem_cons_of_mem _ hp)) _ _ q hq with
      hq' | ⟨hqt, p, hp, hcase⟩
    · rcases (mem_movePairEvents t c1 c2 st evs).mp hq' with
        hev | ⟨rfl, hbuf⟩ | ⟨rfl, hbuf⟩
      · exact Or.inl hev
      · exact Or.inr ⟨rfl, (c1, c2), List.mem_cons_self _ _,
          Or.inl ⟨rfl, hbuf⟩⟩
      · rw [moveMessages_store st c1 c2 h1.1] at hbuf
        exact Or.inr ⟨rfl, (c1, c2), List.mem_cons_self _ _,
          Or.inr ⟨rfl, hbuf⟩⟩
    · exact Or.inr ⟨hqt, p, List.mem_cons_of_mem _ hp, hcase⟩

theorem moveAll_flag_mem (t : Nat) (pairs : List (Chan × Chan))
    (hcw : ∀ p ∈ pairs, crossWired p) :
    ∀ (evs : List (Nat × Nat)) (st : Store) (c1 c2 : Chan),
      (c1, c2) ∈ pairs →
      (bufGet st c1.outbox ≠ [] → (t, c1.them) ∈ (moveAll t pairs evs st).1) ∧
      (bufGet st c2.outbox ≠ [] → (t, c2.them) ∈ (moveAll t pairs evs st).1) := by
  induction pairs with
  | nil => intro evs st c1 c2 hmem; cases hmem
  | cons pr rest ih =>
    intro evs st c1 c2 hmem
    obtain ⟨d1, d2⟩ := pr
    have h1 : crossWired (d1, d2) := hcw _ (List.mem_cons_self _ _)
    have hstep : moveAll t ((d1, d2) :: rest) evs st =
        moveAll t rest (movePairEvents t d1 d2 st evs) st := by
      show moveAll t rest _ _ = _
      rw [movePair_store st d1 d2 h1]
    rw [hstep]
    rcases List.mem_cons.mp hmem with heq | hmem'
    · injection heq with he1 he2
      subst he1
      subst he2
      constructor
      · intro hbuf
        exact moveAll_events_super t rest _ st _
          ((mem_movePairEvents t c1 c2 st evs).mpr
            (Or.inr (Or.inl ⟨rfl, hbuf⟩)))
      · intro hbuf
        refine moveAll_events_super t rest _ st _
          ((mem_movePairEvents t c1 c2 st evs).mpr
            (Or.inr (Or.inr ⟨rfl, ?_⟩)))
        rw [moveMessages_store st c1 c2 h1.1]
        exact hbuf
    · exact ih (fun p hp => hcw p (List.mem_cons_of_mem _ hp)) _ _ c1 c2 hmem'

theorem incPoll_post {m : IncMachine} {time : Nat} {st : Store}
    {m' : IncMachine} {st' : Store}
    (h : m.poll time st = some (m', st')) :
    st'.length = st.length ∧
    ∀ w ∈ wsTimes m'.connections, time < w := by
  unfold IncMachine.poll at h
  cases hp : pollConns time m.connections st with
  | none => rw [hp] at h; cases h
  | some r =>
    rw [hp] at h
    obtain ⟨l', st2⟩ := r
    have h' := Option.some.inj h
    have hm' : (⟨l'⟩ : IncMachine) = m' := congrArg Prod.fst h'
    have hst' : st2 = st' := congrArg Prod.snd h'
    obtain ⟨hlen, hb⟩ := pollConns_post hp
    refine ⟨by rw [← hst', hlen], ?_⟩
    intro w hw
    rw [← hm'] at hw
    obtain ⟨c, v, hm⟩ := (mem_wsTimes_iff _ _).mp hw
    rcases hb _ hm with hwait | ⟨w', v', heq, hlt⟩
    · cases hwait
    · obtain ⟨rfl, -⟩ := ConnectionInfo.willSend.inj heq
      exact hlt

/-! ## Engine invariant preservation -/

theorem timeStep_anatomy {e e' : Engine} (h : timeStep e = some e') :
    (e.events = [] ∧ e' = e) ∨
    ∃ t i rest m m' st',
      e.events = (t, i) :: rest ∧
      e.machines[i]? = some m ∧
      m.poll t e.bufs = some (m', st') ∧
      e' = { events := optInsert m'.pollAt i (moveAll t e.channels rest st').1,
             lastTime := t,
             machines := e.machines.set i m',
             channels := e.channels,
             bufs := (moveAll t e.channels rest st').2,
             hist := e.hist ++ [⟨i, t, true⟩] } := by
  unfold timeStep at h
  cases hev : e.events with
  | nil =>
    rw [hev] at h
    exact Or.inl ⟨rfl, (Option.some.inj h).symm⟩
  | cons p rest =>
    obtain ⟨t, i⟩ := p
    rw [hev] at h
    dsimp only at h
    cases hm : e.machines[i]? with
    | none => rw [hm] at h; cases h
    | some m =>
      rw [hm] at h
      dsimp only at h
      cases hp : m.poll t e.bufs with
      | none => rw [hp] at h; cases h
      | some r =>
        rw [hp] at h
        obtain ⟨m', st'⟩ := r
        dsimp only at h
        exact Or.inr ⟨t, i, rest, m, m', st', rfl, hm, hp,
          (Option.some.inj h).symm⟩

theorem shape_crossWired {e : Engine} (hs : chanShape e) :
    ∀ p ∈ e.channels, crossWired p := by
  intro p hp
  obtain ⟨k, hk⟩ := List.getElem?_of_mem hp
  obtain ⟨c1, c2⟩ := p
  obtain ⟨h1, h2, h3, h4, -, -⟩ := hs.2 k c1 c2 hk
  exact ⟨by rw [h3, h2], by rw [h1, h4]⟩

theorem inv_timeStep {e e' : Engine} (hinv : Inv e) (h : timeStep e = some e') :
    Inv e' ∧ e.lastTime ≤ e'.lastTime ∧ e'.channels = e.channels ∧
    ∀ hh ∈ e.hist, hh ∈ e'.hist := by
  rcases timeStep_anatomy h with ⟨hev, rfl⟩ |
    ⟨t, i, rest, m, m', st', hev, hm, hp, rfl⟩
  · exact ⟨hinv, le_refl _, rfl, fun hh hhm => hhm⟩
  · have hcw : ∀ p ∈ e.channels, crossWired p := shape_crossWired hinv.shape
    have hstore : (moveAll t e.channels rest st').2 = st' :=
      moveAll_store t e.channels rest st' hcw
    obtain ⟨hlen, hws⟩ := incPoll_post hp
    have hpair := hinv.sorted
    rw [hev, List.pairwise_cons] at hpair
    obtain ⟨hhead, hrest⟩ := hpair
    have htlb : e.lastTime ≤ t :=
      hinv.evLB (t, i) (by rw [hev]; exact List.mem_cons_self _ _)
    have hil : i < e.machines.length := (List.getElem?_eq_some.mp hm).1
    have hrest_ge : ∀ q ∈ rest, t ≤ q.1 :=
      fun q hq => evLt_fst_le (hhead q hq)
    have hmoves : ∀ q ∈ (moveAll t e.channels rest st').1,
        q ∈ rest ∨ q.1 = t := by
      intro q hq
      rcases moveAll_events_sub t e.channels hcw rest st' q hq with
        h' | ⟨h', -⟩
      · exact Or.inl h'
      · exact Or.inr h'
    have hmovep : (moveAll t e.channels rest st').1.Pairwise evLt :=
      moveAll_events_pairwise t e.channels rest st' hrest
    have hrest_mem : ∀ q ∈ rest, q ∈ (moveAll t e.channels rest st').1 :=
      fun q hq => moveAll_events_super t e.channels rest st' q hq
    refine ⟨⟨?_, ?_, ?_, ?_, ?_, ?_⟩, htlb, rfl, ?_⟩
    · -- sorted
      exact optInsert_pairwise _ _ hmovep
    · -- evLB
      intro p hpm
      show t ≤ p.1
      rcases (mem_optInsert _ _ _).mp hpm with ⟨nt, hpa, rfl⟩ | hp'
      · have hnt : nt ∈ wsTimes m'.connections :=
          (pollAt_some_spec m' nt hpa).1
        exact le_of_lt (hws nt hnt)
      · rcases hmoves p hp' with hr | hr
        · exact hrest_ge p hr
        · omega
    · -- wsLB
      intro j mj hmj c w v hconn
      show t ≤ w ∧ _
      by_cases hij : j = i
      · subst hij
        have hmj' : mj = m' := by
          rw [List.getElem?_set_self hil] at hmj
          exact (Option.some.inj hmj).symm
        subst hmj'
        have hw : w ∈ wsTimes mj.connections :=
          (mem_wsTimes_iff _ _).mpr ⟨c, v, hconn⟩
        obtain ⟨nt, hpa, hntw⟩ := pollAt_some_of_ws mj hw
        refine ⟨le_of_lt (hws w hw), nt, ?_, hntw⟩
        exact (mem_optInsert _ _ _).mpr (Or.inl ⟨nt, hpa, rfl⟩)
      · have hmj' : e.machines[j]? = some mj := by
          rw [List.getElem?_set_ne (fun hc => hij hc.symm)] at hmj
          exact hmj
        obtain ⟨hlb, t', ht'mem, ht'w⟩ := hinv.wsLB j mj hmj' c w v hconn
        rw [hev] at ht'mem
        rcases List.mem_cons.mp ht'mem with heq | hmemr
        · exact absurd (congrArg Prod.snd heq) hij
        · have htw : t ≤ w := le_trans (hrest_ge _ hmemr) ht'w
          refine ⟨htw, t', ?_, ht'w⟩
          exact (mem_optInsert _ _ _).mpr (Or.inr (hrest_mem _ hmemr))
    · -- histLB
      intro hh hhm
      rcases List.mem_append.mp hhm with hold | hnew
      · exact le_trans (hinv.histLB hh hold) htlb
      · rcases List.mem_cons.mp hnew with rfl | habs
        · exact le_refl _
        · cases habs
    · -- histSorted
      show ((e.hist ++ [(⟨i, t, true⟩ : HistEntry)]).map
        HistEntry.time).Pairwise (· ≤ ·)
      rw [List.map_append, List.pairwise_append]
      refine ⟨hinv.histSorted, by simp, ?_⟩
      intro a ha b hb
      obtain ⟨hh, hhm, rfl⟩ := List.mem_map.mp ha
      have hbv : b = t := by
        simp at hb
        exact hb
      rw [hbv]
      exact le_trans (hinv.histLB hh hhm) htlb
    · -- shape
      constructor
      · show (moveAll t e.channels rest st').2.length = 2 * e.channels.length
        rw [hstore, hlen]
        exact hinv.shape.1
      · exact hinv.shape.2
    · -- hist monotone
      intro hh hhm
      exact List.mem_append.mpr (Or.inl hhm)

theorem wsTimes_addConnection (m : IncMachine) (c : Chan) (time : Nat) :
    wsTimes (m.addConnection c time).connections =
      wsTimes m.connections ++ (if c.us < c.them then [time + 1] else []) := by
  by_cases h : c.us < c.them <;>
    simp [IncMachine.addConnection, wsTimes, List.filterMap_append, h]

theorem getD_of_lt {l : List IncMachine} {j : Nat} (h : j < l.length) :
    l[j]? = some (l.getD j default) := by
  simp [List.getD_eq_getElem?_getD, List.getElem?_eq_getElem h]

theorem inv_connect {a b : Nat} {e e' : Engine} (hinv : Inv e)
    (h : connectCmd a b e = some e') :
    Inv e' ∧ e'.lastTime = e.lastTime ∧ ∀ hh ∈ e.hist, hh ∈ e'.hist := by
  unfold connectCmd at h
  dsimp only at h
  cases hma : e.machines[a]? with
  | none => rw [hma] at h; cases h
  | some ma =>
    rw [hma] at h
    dsimp only at h
    cases hmb : (e.machines.set a
        (ma.addConnection (channelNew e.bufs.length a b).1 e.lastTime))[b]?
      with
    | none => rw [hmb] at h; cases h
    | some mb =>
      rw [hmb] at h
      dsimp only at h
      have he' := (Option.some.inj h).symm
      subst he'
      have ha_lt : a < e.machines.length := (List.getElem?_eq_some.mp hma).1
      have hb_lt : b < e.machines.length := by
        have := (List.getElem?_eq_some.mp hmb).1
        rwa [List.length_set] at this
      have hbase : ∀ (j : Nat) (mj : IncMachine), e.machines[j]? = some mj →
          ∀ w ∈ wsTimes mj.connections, e.lastTime ≤ w := by
        intro j mj hmj w hw
        obtain ⟨c, v, hc⟩ := (mem_wsTimes_iff _ _).mp hw
        exact (hinv.wsLB j mj hmj c w v hc).1
      have haddc : ∀ (mbase : IncMachine) (c : Chan),
          (∀ w ∈ wsTimes mbase.connections, e.lastTime ≤ w) →
          ∀ w ∈ wsTimes (mbase.addConnection c e.lastTime).connections,
            e.lastTime ≤ w := by
        intro mbase c hb' w hw
        rw [wsTimes_addConnection] at hw
        rcases List.mem_append.mp hw with h' | h'
        · exact hb' w h'
        · by_cases hc : c.us < c.them
          · rw [if_pos hc] at h'
            rcases List.mem_cons.mp h' with rfl | h2
            · omega
            · cases h2
          · rw [if_neg hc] at h'
            cases h'
      -- the fully updated machine list
      have hmb_ws : ∀ w ∈ wsTimes mb.connections, e.lastTime ≤ w := by
        by_cases hba : b = a
        · subst hba
          have hmb2 : mb = ma.addConnection (channelNew e.bufs.length b b).1
              e.lastTime := by
            rw [List.getElem?_set_self ha_lt] at hmb
            exact (Option.some.inj hmb).symm
          rw [hmb2]
          exact haddc _ _ (hbase b ma hma)
        · have hmb' : e.machines[b]? = some mb := by
            rwa [List.getElem?_set_ne (fun hc => hba hc.symm)] at hmb
          exact hbase b mb hmb'
      have hws2 : ∀ (j : Nat) (mj : IncMachine),
          ((e.machines.set a (ma.addConnection
              (channelNew e.bufs.length a b).1 e.lastTime)).set b
            (mb.addConnection (channelNew e.bufs.length a b).2
              e.lastTime))[j]? = some mj →
          ∀ w ∈ wsTimes mj.connections, e.lastTime ≤ w := by
        intro j mj hmj
        by_cases hjb : j = b
        · subst hjb
          rw [List.getElem?_set_self (by rwa [List.length_set])] at hmj
          rw [← Option.some.inj hmj]
          exact haddc _ _ hmb_ws
        · rw [List.getElem?_set_ne (fun hc => hjb hc.symm)] at hmj
          by_cases hja : j = a
          · subst hja
            rw [List.getElem?_set_self ha_lt] at hmj
            rw [← Option.some.inj hmj]
            exact haddc _ _ (hbase j ma hma)
          · rw [List.getElem?_set_ne (fun hc => hja hc.symm)] at hmj
            exact hbase j mj hmj
      have hlen2 : ((e.machines.set a (ma.addConnection
          (channelNew e.bufs.length a b).1 e.lastTime)).set b
            (mb.addConnection (channelNew e.bufs.length a b).2
              e.lastTime)).length = e.machines.length := by
        rw [List.length_set, List.length_set]
      -- membership in the new event queue
      have hmem_new : ∀ q ∈ e.events,
          q ∈ optInsert (((e.machines.set a (ma.addConnection
              (channelNew e.bufs.length a b).1 e.lastTime)).set b
                (mb.addConnection (channelNew e.bufs.length a b).2
                  e.lastTime)).getD b default).pollAt b
              (optInsert (((e.machines.set a (ma.addConnection
                (channelNew e.bufs.length a b).1 e.lastTime)).set b
                  (mb.addConnection (channelNew e.bufs.length a b).2
                    e.lastTime)).getD a default).pollAt a e.events) := by
        intro q hq
        exact (mem_optInsert _ _ _).mpr (Or.inr
          ((mem_optInsert _ _ _).mpr (Or.inr hq)))
      refine ⟨⟨?_, ?_, ?_, ?_, ?_, ?_⟩, rfl, ?_⟩
      · -- sorted
        exact optInsert_pairwise _ _ (optInsert_pairwise _ _ hinv.sorted)
      · -- evLB
        intro p hpm
        show e.lastTime ≤ p.1
        rcases (mem_optInsert _ _ _).mp hpm with ⟨tb, hpb, rfl⟩ | hpm1
        · have := (pollAt_some_spec _ tb hpb).1
          exact hws2 b _ (getD_of_lt (by rwa [hlen2])) tb this
        · rcases (mem_optInsert _ _ _).mp hpm1 with ⟨ta, hpa, rfl⟩ | hpm2
          · have := (pollAt_some_spec _ ta hpa).1
            exact hws2 a _ (getD_of_lt (by rwa [hlen2])) ta this
          · exact hinv.evLB p hpm2
      · -- wsLB
        intro j mj hmj c w v hconn
        have hw : w ∈ wsTimes mj.connections :=
          (mem_wsTimes_iff _ _).mpr ⟨c, v, hconn⟩
        have hgetD : ∀ (jj : Nat) (mjj : IncMachine),
            ((e.machines.set a (ma.addConnection
              (channelNew e.bufs.length a b).1 e.lastTime)).set b
                (mb.addConnection (channelNew e.bufs.length a b).2
                  e.lastTime))[jj]? = some mjj →
            ((e.machines.set a (ma.addConnection
              (channelNew e.bufs.length a b).1 e.lastTime)).set b
                (mb.addConnection (channelNew e.bufs.length a b).2
                  e.lastTime)).getD jj default = mjj := by
          intro jj mjj hmjj
          have hlt : jj < ((e.machines.set a (ma.addConnection
              (channelNew e.bufs.length a b).1 e.lastTime)).set b
                (mb.addConnection (channelNew e.bufs.length a b).2
                  e.lastTime)).length := (List.getElem?_eq_some.mp hmjj).1
          have hh := getD_of_lt hlt
          rw [hmjj] at hh
          exact (Option.some.inj hh).symm
        refine ⟨hws2 j mj hmj w hw, ?_⟩
        by_cases hjb : j = b
        · subst hjb
          obtain ⟨tb, hpb, htbw⟩ := pollAt_some_of_ws mj hw
          refine ⟨tb, ?_, htbw⟩
          rw [hgetD j mj hmj]
          exact (mem_optInsert _ _ _).mpr (Or.inl ⟨tb, hpb, rfl⟩)
        · by_cases hja : j = a
          · subst hja
            obtain ⟨ta, hpa, htaw⟩ := pollAt_some_of_ws mj hw
            refine ⟨ta, ?_, htaw⟩
            refine (mem_optInsert _ _ _).mpr (Or.inr ?_)
            rw [hgetD j mj hmj]
            exact (mem_optInsert _ _ _).mpr (Or.inl ⟨ta, hpa, rfl⟩)
          · have hmj' : e.machines[j]? = some mj := by
              rw [List.getElem?_set_ne (fun hc => hjb hc.symm),
                List.getElem?_set_ne (fun hc => hja hc.symm)] at hmj
              exact hmj
            obtain ⟨-, t', ht'mem, ht'w⟩ :=
              hinv.wsLB j mj hmj' c w v hconn
            exact ⟨t', hmem_new _ ht'mem, ht'w⟩
      · -- histLB
        intro hh hhm
        rcases List.mem_append.mp hhm with hold | hnew
        · exact hinv.histLB hh hold
        · rcases List.mem_cons.mp hnew with rfl | hnew2
          · exact le_refl _
          · rcases List.mem_cons.mp hnew2 with rfl | habs
            · exact le_refl _
            · cases habs
      · -- histSorted
        rw [List.map_append, List.pairwise_append]
        refine ⟨hinv.histSorted, by simp, ?_⟩
        intro x hx y hy
        obtain ⟨hh, hhm, rfl⟩ := List.mem_map.mp hx
        have hyv : y = e.lastTime := by
          simpa using hy
        rw [hyv]
        exact hinv.histLB hh hhm
      · -- shape
        constructor
        · show (e.bufs ++ [[], []]).length = 2 * (e.channels ++
            [channelNew e.bufs.length a b]).length
          rw [List.length_append, List.length_append, hinv.shape.1]
          simp
          omega
        · intro k c1' c2' hk
          by_cases hkl : k < e.channels.length
          · rw [List.getElem?_append_left hkl] at hk
            exact hinv.shape.2 k c1' c2' hk
          · have hkk : k = e.channels.length := by
              rw [List.getElem?_append_right (by omega)] at hk
              have hlt : k - e.channels.length <
                  ([channelNew e.bufs.length a b] :
                    List (Chan × Chan)).length :=
                (List.getElem?_eq_some.mp hk).1
              simp at hlt
              omega
            subst hkk
            rw [List.getElem?_concat_length] at hk
            have hpair := Option.some.inj hk
            have hc1 : c1' = (channelNew e.bufs.length a b).1 :=
              (congrArg Prod.fst hpair).symm
            have hc2 : c2' = (channelNew e.bufs.length a b).2 :=
              (congrArg Prod.snd hpair).symm
            subst hc1
            subst hc2
            refine ⟨?_, ?_, ?_, ?_, rfl, rfl⟩
            · exact hinv.shape.1
            · show e.bufs.length + 1 = 2 * e.channels.length + 1
              rw [hinv.shape.1]
            · show e.bufs.length + 1 = 2 * e.channels.length + 1
              rw [hinv.shape.1]
            · exact hinv.shape.1
      · -- hist monotone
        intro hh hhm
        exact List.mem_append.mpr (Or.inl hhm)

theorem inv_add {e : Engine} (hinv : Inv e) :
    Inv (addCmd e) ∧ (addCmd e).lastTime = e.lastTime ∧
    ∀ hh ∈ e.hist, hh ∈ (addCmd e).hist := by
  refine ⟨⟨?_, ?_, ?_, ?_, ?_, ?_⟩, rfl, fun hh hhm => hhm⟩
  · exact hinv.sorted
  · exact hinv.evLB
  · intro j mj hmj c w v hconn
    by_cases hj : j < e.machines.length
    · rw [show (addCmd e).machines = e.machines ++ [IncMachine.start]
        from rfl, List.getElem?_append_left hj] at hmj
      exact hinv.wsLB j mj hmj c w v hconn
    · rw [show (addCmd e).machines = e.machines ++ [IncMachine.start]
        from rfl, List.getElem?_append_right (by omega)] at hmj
      have hlt := (List.getElem?_eq_some.mp hmj).1
      simp at hlt
      have hjj : j = e.machines.length := by omega
      subst hjj
      simp at hmj
      rw [← hmj] at hconn
      cases hconn
  · exact hinv.histLB
  · exact hinv.histSorted
  · exact hinv.shape

theorem inv_realtimeLoop :
    ∀ (fuel virtEnd : Nat) {e e' : Engine}, Inv e →
      realtimeLoop fuel virtEnd e = some e' →
      Inv e' ∧ e.lastTime ≤ e'.lastTime ∧ ∀ hh ∈ e.hist, hh ∈ e'.hist := by
  intro fuel
  induction fuel with
  | zero =>
    intro vE e e' hinv h
    cases Option.some.inj h
    exact ⟨hinv, le_refl _, fun _ hh => hh⟩
  | succ n ih =>
    intro vE e e' hinv h
    unfold realtimeLoop at h
    cases hhd : e.events.head? with
    | none =>
      rw [hhd] at h
      cases Option.some.inj h
      exact ⟨hinv, le_refl _, fun _ hh => hh⟩
    | some p =>
      rw [hhd] at h
      obtain ⟨nt, j⟩ := p
      dsimp only at h
      by_cases hgt : vE < nt
      · rw [if_pos hgt] at h
        cases Option.some.inj h
        exact ⟨hinv, le_refl _, fun _ hh => hh⟩
      · rw [if_neg hgt] at h
        cases hts : timeStep e with
        | none => rw [hts] at h; cases h
        | some em =>
          rw [hts] at h
          obtain ⟨hinvm, hlt1, -, hh1⟩ := inv_timeStep hinv hts
          obtain ⟨hinv', hlt2, hh2⟩ := ih vE hinvm h
          exact ⟨hinv', le_trans hlt1 hlt2,
            fun x hx => hh2 x (hh1 x hx)⟩

theorem inv_runCmd {e e' : Engine} {cmd : Cmd} (hinv : Inv e)
    (h : runCmd e cmd = some e') :
    Inv e' ∧ e.lastTime ≤ e'.lastTime ∧ ∀ hh ∈ e.hist, hh ∈ e'.hist := by
  cases cmd with
  | add =>
    cases Option.some.inj h
    obtain ⟨h1, h2, h3⟩ := inv_add hinv
    exact ⟨h1, le_of_eq h2.symm, h3⟩
  | connect a b =>
    obtain ⟨h1, h2, h3⟩ := inv_connect hinv h
    exact ⟨h1, le_of_eq h2.symm, h3⟩
  | step =>
    unfold runCmd at h
    by_cases hev : e.events = []
    · rw [if_pos hev] at h
      cases Option.some.inj h
      exact ⟨hinv, le_refl _, fun _ hh => hh⟩
    · rw [if_neg hev] at h
      obtain ⟨h1, h2, -, h3⟩ := inv_timeStep hinv h
      exact ⟨h1, h2, h3⟩
  | realtime secs fuel => exact inv_realtimeLoop fuel _ hinv h

theorem inv_init : Inv initEngine := by
  refine ⟨?_, ?_, ?_, ?_, ?_, ?_, ?_⟩
  · exact List.Pairwise.nil
  · intro p hp; cases hp
  · intro j mj hmj
    cases hmj
  · intro hh hhm; cases hhm
  · exact List.Pairwise.nil
  · rfl
  · intro k c1 c2 hk
    cases hk

theorem inv_runCmdsFrom :
    ∀ (cmds : List Cmd) {e e' : Engine}, Inv e →
      runCmdsFrom e cmds = some e' →
      Inv e' ∧ e.lastTime ≤ e'.lastTime ∧ ∀ hh ∈ e.hist, hh ∈ e'.hist := by
  intro cmds
  induction cmds with
  | nil =>
    intro e e' hinv h
    cases Option.some.inj h
    exact ⟨hinv, le_refl _, fun _ hh => hh⟩
  | cons c rest ih =>
    intro e e' hinv h
    unfold runCmdsFrom at h
    cases hc : runCmd e c with
    | none => rw [hc] at h; cases h
    | some em =>
      rw [hc] at h
      obtain ⟨h1, h2, h3⟩ := inv_runCmd hinv hc
      obtain ⟨h1', h2', h3'⟩ := ih h1 h
      exact ⟨h1', le_trans h2 h2', fun x hx => h3' x (h3 x hx)⟩

theorem inv_runCmds {cmds : List Cmd} {e : Engine}
    (h : runCmds cmds = some e) : Inv e :=
  (inv_runCmdsFrom cmds inv_init h).1

/-! ## Claims about the event loop -/

/-- Claim C4: over any driver-command run, each machine's interaction history
(the times at which it was polled or connected, in order) is
non-decreasing: no machine is ever polled at a time less than any
earlier poll or connection time it observed. -/
theorem poll_times_monotone (cmds : List Cmd) (e : Engine)
    (h : runCmds cmds = some e) (i : Nat) :
    ((e.hist.filter (fun en => en.idx == i)).map
      HistEntry.time).Pairwise (· ≤ ·) := by
  have hs := (inv_runCmds h).histSorted
  have hsub : ((e.hist.filter (fun en => en.idx == i)).map
      HistEntry.time).Sublist (e.hist.map HistEntry.time) :=
    (List.filter_sublist _).map _
  exact List.Pairwise.sublist hsub hs

theorem poll_times_monotone_witness :
    ((((runCmds bounceCmds).getD initEngine).hist.filter
        (fun en => en.idx == 1)).map HistEntry.time).Pairwise (· ≤ ·) :=
  poll_times_monotone bounceCmds ((runCmds bounceCmds).getD initEngine)
    (by rfl) 1

theorem timeStep_hist_mono {e e' : Engine} (h : timeStep e = some e') :
    ∀ hh ∈ e.hist, hh ∈ e'.hist := by
  rcases timeStep_anatomy h with ⟨-, rfl⟩ |
    ⟨t, i, rest, m, m', st', -, -, -, rfl⟩
  · exact fun _ hh => hh
  · exact fun x hx => List.mem_append.mpr (Or.inl hx)

theorem stepN_hist_mono :
    ∀ (n : Nat) {e0 e1 : Engine}, stepN n e0 = some e1 →
      ∀ hh ∈ e0.hist, hh ∈ e1.hist := by
  intro n
  induction n with
  | zero =>
    intro e0 e1 h
    cases Option.some.inj h
    exact fun _ hh => hh
  | succ k ih =>
    intro e0 e1 h
    unfold stepN at h
    cases hts : timeStep e0 with
    | none => rw [hts] at h; cases h
    | some em =>
      rw [hts] at h
      exact fun x hx => ih h x (timeStep_hist_mono hts x hx)

theorem stepN_pending {B T : Nat} :
    ∀ (n : Nat) {e0 e1 : Engine}, Inv e0 → e0.lastTime = T →
      (T, B) ∈ e0.events → stepN n e0 = some e1 →
      (⟨B, T, true⟩ : HistEntry) ∈ e1.hist ∨
      ((T, B) ∈ e1.events ∧ e1.lastTime = T) := by
  intro n
  induction n with
  | zero =>
    intro e0 e1 _ hlt hmem h
    cases Option.some.inj h
    exact Or.inr ⟨hmem, hlt⟩
  | succ k ih =>
    intro e0 e1 hinv hlt hmem h
    unfold stepN at h
    cases hts : timeStep e0 with
    | none => rw [hts] at h; cases h
    | some em =>
      rw [hts] at h
      rcases timeStep_anatomy hts with ⟨hev, heq⟩ |
        ⟨t, i, rest, m, m', st', hev, hm, hp, heq⟩
      · rw [hev] at hmem
        cases hmem
      · by_cases hpop : (t, i) = (T, B)
        · left
          have hmem2 : (⟨B, T, true⟩ : HistEntry) ∈ em.hist := by
            have hT : t = T := congrArg Prod.fst hpop
            have hB : i = B := congrArg Prod.snd hpop
            rw [heq]
            subst hT
            subst hB
            exact List.mem_append.mpr (Or.inr (List.mem_cons_self _ _))
          exact stepN_hist_mono k h _ hmem2
        · have hmemr : (T, B) ∈ rest := by
            rw [hev] at hmem
            rcases List.mem_cons.mp hmem with heq2 | hr
            · exact absurd heq2.symm hpop
            · exact hr
          have hsorted := hinv.sorted
          rw [hev, List.pairwise_cons] at hsorted
          have htT : t = T := by
            have hle : t ≤ T := evLt_fst_le (hsorted.1 _ hmemr)
            have hge : T ≤ t := by
              rw [← hlt]
              exact hinv.evLB (t, i)
                (by rw [hev]; exact List.mem_cons_self _ _)
            omega
          have hmem' : (T, B) ∈ em.events := by
            rw [heq]
            exact (mem_optInsert _ _ _).mpr
              (Or.inr (moveAll_events_super _ _ _ _ _ hmemr))
          have hinv' : Inv em := (inv_timeStep hinv hts).1
          have hlt' : em.lastTime = T := by
            rw [heq]
            exact htT
          exact ih hinv' hlt' hmem' h

/-- Claim C5: when the machine popped at time `T` leaves bytes pending on a
channel toward machine `B` (every channel in this engine is direct —
there are no Wires), the step enqueues `(T, B)`; every queued event is
at time `≥ T`, and as long as stepping continues, `B` is polled at time
`T` itself before the clock ever moves past `T`: after any number of
further steps, either `B`'s poll at `T` is on record, or `(T, B)` is
still queued and the clock still reads `T`. -/
theorem same_time_delivery_requeues_peer
    (cmds : List Cmd) (e e' : Engine) (T A : Nat) (c1 c2 : Chan)
    (hreach : runCmds cmds = some e)
    (hpop : e.events.head? = some (T, A))
    (hstep : timeStep e = some e')
    (hpair : (c1, c2) ∈ e.channels ∨ (c2, c1) ∈ e.channels)
    (hbytes : bufGet e'.bufs c1.outbox ≠ []) :
    ((T, c1.them) ∈ e'.events ∧ ∀ p ∈ e'.events, T ≤ p.1) ∧
    ∀ (n : Nat) (e'' : Engine), stepN n e' = some e'' →
      (⟨c1.them, T, true⟩ : HistEntry) ∈ e''.hist ∨
      ((T, c1.them) ∈ e''.events ∧ e''.lastTime = T) := by
  have hinv := inv_runCmds hreach
  rcases timeStep_anatomy hstep with ⟨hev, heq⟩ |
    ⟨t, i, rest, m, m', st', hev, hm, hp, heq⟩
  · rw [hev] at hpop
    cases hpop
  · have hTA : (t, i) = (T, A) := by
      rw [hev] at hpop
      exact Option.some.inj hpop
    have hT : t = T := congrArg Prod.fst hTA
    subst hT
    have hcw := shape_crossWired hinv.shape
    have hstore : (moveAll t e.channels rest st').2 = st' :=
      moveAll_store t e.channels rest st' hcw
    have hbytes' : bufGet st' c1.outbox ≠ [] := by
      rw [← hstore]
      have hb : e'.bufs = (moveAll t e.channels rest st').2 := by
        rw [heq]
      rw [← hb]
      exact hbytes
    have hmemB : (t, c1.them) ∈ e'.events := by
      rw [heq]
      refine (mem_optInsert _ _ _).mpr (Or.inr ?_)
      rcases hpair with hpm | hpm
      · exact (moveAll_flag_mem t e.channels hcw rest st' c1 c2 hpm).1
          hbytes'
      · exact (moveAll_flag_mem t e.channels hcw rest st' c2 c1 hpm).2
          hbytes'
    have hinv' : Inv e' := (inv_timeStep hinv hstep).1
    have hlt' : e'.lastTime = t := by
      rw [heq]
    refine ⟨⟨hmemB, ?_⟩, ?_⟩
    · intro p hpm
      have := hinv'.evLB p hpm
      rw [hlt'] at this
      exact this
    · intro n e'' hsn
      exact stepN_pending n hinv' hlt' hmemB hsn

/-- Claim C7 (amended): no `time_step` enqueues a new event for a dormant
machine.  Any event a step adds (beyond those already queued) is for a
machine that, in the resulting state, either reports a wake time via
`poll_at` or has bytes pending in a channel toward it.  (A dormant
machine can still be re-polled by a stale event enqueued before it
became dormant — the queue is never purged — and `connect` enqueues
events for the two machines it touches.) -/
theorem no_new_event_for_dormant_machine
    (cmds : List Cmd) (e e' : Engine) (p : Nat × Nat)
    (hreach : runCmds cmds = some e)
    (hstep : timeStep e = some e')
    (hmem : p ∈ e'.events) (hnew : p ∉ e.events) :
    (∃ m', e'.machines[p.2]? = some m' ∧ m'.pollAt ≠ none) ∨
    (∃ c1 c2 : Chan, ((c1, c2) ∈ e'.channels ∨ (c2, c1) ∈ e'.channels) ∧
      c1.them = p.2 ∧ bufGet e'.bufs c1.outbox ≠ []) := by
  have hinv := inv_runCmds hreach
  rcases timeStep_anatomy hstep with ⟨hev, heq⟩ |
    ⟨t, i, rest, m, m', st', hev, hm, hp, heq⟩
  · rw [heq] at hmem
    exact absurd hmem hnew
  · have hcw := shape_crossWired hinv.shape
    have hstore : (moveAll t e.channels rest st').2 = st' :=
      moveAll_store t e.channels rest st' hcw
    rw [heq] at hmem
    rcases (mem_optInsert _ _ _).mp hmem with ⟨nt, hpa, rfl⟩ | hmm
    · left
      refine ⟨m', ?_, ?_⟩
      · rw [heq]
        exact List.getElem?_set_self (List.getElem?_eq_some.mp hm).1
      · rw [hpa]
        simp
    · rcases moveAll_events_sub t e.channels hcw rest st' p hmm with
        hr | ⟨hpt, pr, hpr, hcase⟩
      · refine absurd ?_ hnew
        rw [hev]
        exact List.mem_cons_of_mem _ hr
      · right
        obtain ⟨d1, d2⟩ := pr
        rcases hcase with ⟨hq2, hbuf⟩ | ⟨hq2, hbuf⟩
        · refine ⟨d1, d2, Or.inl (by rw [heq]; exact hpr), hq2.symm, ?_⟩
          rw [heq]
          show bufGet (moveAll t e.channels rest st').2 d1.outbox ≠ []
          rw [hstore]
          exact hbuf
        · refine ⟨d2, d1, Or.inr (by rw [heq]; exact hpr), hq2.symm, ?_⟩
          rw [heq]
          show bufGet (moveAll t e.channels rest st').2 d2.outbox ≠ []
          rw [hstore]
          exact hbuf

theorem same_time_delivery_requeues_peer_witness :
    ((1, 1) ∈ ((timeStep (bounceState 3)).getD initEngine).events ∧
      ∀ p ∈ ((timeStep (bounceState 3)).getD initEngine).events,
        1 ≤ p.1) ∧
    ∀ (n : Nat) (e'' : Engine),
      stepN n ((timeStep (bounceState 3)).getD initEngine) = some e'' →
      (⟨1, 1, true⟩ : HistEntry) ∈ e''.hist ∨
      ((1, 1) ∈ e''.events ∧ e''.lastTime = 1) :=
  same_time_delivery_requeues_peer (bounceCmds.take 3) (bounceState 3)
    ((timeStep (bounceState 3)).getD initEngine) 1 0
    ⟨0, 1, 0, 1⟩ ⟨1, 0, 1, 0⟩ (by rfl) (by decide) (by rfl)
    (Or.inl (by decide)) (by decide)

theorem no_new_event_for_dormant_machine_witness :
    (∃ m', ((timeStep (bounceState 3)).getD
        initEngine).machines[(1, 1).2]? = some m' ∧ m'.pollAt ≠ none) ∨
    (∃ c1 c2 : Chan,
      ((c1, c2) ∈ ((timeStep (bounceState 3)).getD initEngine).channels ∨
       (c2, c1) ∈ ((timeStep (bounceState 3)).getD initEngine).channels) ∧
      c1.them = (1, 1).2 ∧
      bufGet ((timeStep (bounceState 3)).getD initEngine).bufs c1.outbox
        ≠ []) :=
  no_new_event_for_dormant_machine (bounceCmds.take 3) (bounceState 3)
    ((timeStep (bounceState 3)).getD initEngine) (1, 1) (by rfl) (by rfl)
    (by decide) (by decide)

/-- Claim C7, counterexample.  Machine 1 goes dormant after its poll at time 2
(`poll_at` returns none, both of its inboxes — buffers 1 and 2 — are
empty); the following step polls machine 2, delivers nothing to machine
1, adds no connection; yet the step after that polls machine 1 at time
3, via the stale event `(3, 1)` left over from the `WillSend(3, 2)`
that the early poll at time 2 dropped. -/
theorem dormant_machine_repolled_by_stale_event :
    ((dormantState 0).machines.getD 1 default).pollAt = none ∧
    ((dormantState 0).machines.getD 1 default).connections.map
      (fun p => p.1.inbox) = [1, 2] ∧
    bufGet (dormantState 0).bufs 1 = [] ∧
    bufGet (dormantState 0).bufs 2 = [] ∧
    ((dormantState 1).machines.getD 1 default).pollAt = none ∧
    (dormantState 1).bufs = [[], [], [], []] ∧
    (dormantState 1).hist = (dormantState 0).hist ++ [⟨2, 2, true⟩] ∧
    (dormantState 0).events = [(2, 2), (3, 1)] ∧
    (dormantState 2).hist = (dormantState 1).hist ++ [⟨1, 3, true⟩] := by
  decide

/-- Claim C3: the spec's concrete scenario, step by step.  `connect(0,1)` at
time 0 seeds machine 0 with `WillSend(1,1)` and machine 1 `Waiting`;
the first step advances the clock to 1, polls machine 0 (which sends
byte 1 and becomes `Waiting`), leaves the byte in machine 1's inbox
(buffer 1) and re-enqueues machine 1 at time 1; the second step polls
machine 1 at time 1, which transitions to `WillSend(3, 2)`; the third
step, at time 3, polls machine 1 again, which sends byte 2 into machine
0's inbox (buffer 0). -/
theorem concrete_bounce_scenario :
    ((bounceState 3).machines.getD 0 default).connections.map Prod.snd
      = [.willSend 1 1] ∧
    ((bounceState 3).machines.getD 1 default).connections.map Prod.snd
      = [.waiting] ∧
    (bounceState 3).lastTime = 0 ∧
    (bounceState 3).events = [(1, 0)] ∧
    (bounceState 4).lastTime = 1 ∧
    (bounceState 4).hist.getLast? = some ⟨0, 1, true⟩ ∧
    ((bounceState 4).machines.getD 0 default).connections.map Prod.snd
      = [.waiting] ∧
    ((bounceState 4).machines.getD 1 default).connections.map
      (fun p => p.1.inbox) = [1] ∧
    bufGet (bounceState 4).bufs 1 = [1] ∧
    (bounceState 4).events = [(1, 1)] ∧
    (bounceState 5).hist.getLast? = some ⟨1, 1, true⟩ ∧
    ((bounceState 5).machines.getD 1 default).connections.map Prod.snd
      = [.willSend 3 2] ∧
    (bounceState 5).events = [(3, 1)] ∧
    (bounceState 6).lastTime = 3 ∧
    (bounceState 6).hist.getLast? = some ⟨1, 3, true⟩ ∧
    ((bounceState 6).machines.getD 0 default).connections.map
      (fun p => p.1.inbox) = [0] ∧
    bufGet (bounceState 6).bufs 0 = [2] ∧
    ((bounceState 6).machines.getD 1 default).connections.map Prod.snd
      = [.waiting] := by
  decide

end Sim
